import Mathlib

/-!
Verification of the skipping-stones peg-solitaire core: board geometry
registry, move-table builder, state codec, backtracking solver, solution
cache and work queue, shallowly embedded from the Python sources
(`board_shapes.py`, `solver.py`, `solver_cache.py`, `solver_queue.py`,
`app.py`, `solve_queue.py`).
-/

set_option maxRecDepth 100000

/-! ### Board geometry (board_shapes.py) -/

/-- A board cell as a (row, col) pair of integers (Python tuples of ints). -/
abbrev Cell := Int × Int

/-- Mirrors `_compute_valid_cells`: sorted list of valid (row, col) tuples,
row-major as produced by the nested comprehension. -/
def computeValidCells (rows cols : Nat) (isValid : Int → Int → Bool) : List Cell :=
  (List.range rows).flatMap fun r =>
    (List.range cols).filterMap fun c =>
      if isValid (Int.ofNat r) (Int.ofNat c) then some (Int.ofNat r, Int.ofNat c) else none

/-- Mirrors `_english_valid`: 7x7 with 2x2 corners cut. -/
def englishValid (r c : Int) : Bool :=
  if r < 0 || r > 6 || c < 0 || c > 6 then false
  else if r < 2 && c < 2 then false
  else if r < 2 && c > 4 then false
  else if r > 4 && c < 2 then false
  else if r > 4 && c > 4 then false
  else true

/-- Mirrors `_european_valid`: English plus 4 inner corner cells. -/
def europeanValid (r c : Int) : Bool :=
  if englishValid r c then true
  else if (r, c) = ((1 : Int), (1 : Int)) ∨ (r, c) = ((1 : Int), (5 : Int)) ∨
      (r, c) = ((5 : Int), (1 : Int)) ∨ (r, c) = ((5 : Int), (5 : Int)) then true
  else false

/-- Mirrors `_wiegleb_valid`: 9x9 with 3x3 corners cut. -/
def wieglebValid (r c : Int) : Bool :=
  if r < 0 || r > 8 || c < 0 || c > 8 then false
  else if r < 3 && c < 3 then false
  else if r < 3 && c > 5 then false
  else if r > 5 && c < 3 then false
  else if r > 5 && c > 5 then false
  else true

/-- Mirrors `_asymmetrical_valid`: 8x8 cross shape. -/
def asymmetricalValid (r c : Int) : Bool :=
  if r < 0 || r > 7 || c < 0 || c > 7 then false
  else if 3 ≤ r && r ≤ 5 then true
  else if 2 ≤ c && c ≤ 4 then true
  else false

/-- Mirrors `_diamond_valid`: 9x9 with Manhattan distance at most 4 from center. -/
def diamondValid (r c : Int) : Bool :=
  if r < 0 || r > 8 || c < 0 || c > 8 then false
  else (r - 4).natAbs + (c - 4).natAbs ≤ 4

/-- A board shape record, mirroring the entries of `BOARD_SHAPES`. -/
structure Shape where
  id : String
  rows : Nat
  cols : Nat
  center : Cell
  validCells : List Cell
deriving DecidableEq

/-- The wiegleb shape from `BOARD_SHAPES`. -/
def wieglebShape : Shape :=
  ⟨"wiegleb", 9, 9, (4, 4), computeValidCells 9 9 wieglebValid⟩

/-- The english shape from `BOARD_SHAPES`. -/
def englishShape : Shape :=
  ⟨"english", 7, 7, (3, 3), computeValidCells 7 7 englishValid⟩

/-- The european shape from `BOARD_SHAPES`. -/
def europeanShape : Shape :=
  ⟨"european", 7, 7, (2, 3), computeValidCells 7 7 europeanValid⟩

/-- The asymmetrical shape from `BOARD_SHAPES`. -/
def asymmetricalShape : Shape :=
  ⟨"asymmetrical", 8, 8, (4, 3), computeValidCells 8 8 asymmetricalValid⟩

/-- The diamond shape from `BOARD_SHAPES`. -/
def diamondShape : Shape :=
  ⟨"diamond", 9, 9, (4, 4), computeValidCells 9 9 diamondValid⟩

/-- The registry `BOARD_SHAPES` as a list of shapes (dict values, in
`SHAPE_ORDER`). -/
def boardShapes : List Shape :=
  [wieglebShape, englishShape, europeanShape, asymmetricalShape, diamondShape]

/-- Registry lookup `BOARD_SHAPES[shape_id]`; `none` models the `KeyError`
raised on an unknown id. -/
def lookupShape (shapeId : String) : Option Shape :=
  boardShapes.find? (fun s => s.id = shapeId)

/-! ### Move table builder (solver.py `_build_solver_data`) -/

/-- The `DIRECTIONS` constant: (row_delta, col_delta) jump offsets. -/
def directions : List (Int × Int) := [(-2, 0), (2, 0), (0, -2), (0, 2)]

/-- First index of a cell in a list of cells; models the `cell_index` dict
built by enumeration (for duplicate-free cell lists the dict and the first
index agree). -/
def idxOf : List Cell → Cell → Nat
  | [], _ => 0
  | c :: t, p => if c = p then 0 else idxOf t p + 1

/-- A precomputed move: the three single-bit masks and the six coordinates,
mirroring the 9-tuples appended by `_build_solver_data`. -/
structure PMove where
  fromBit : Nat
  toBit : Nat
  jumpBit : Nat
  fr : Int
  fc : Int
  tr : Int
  tc : Int
  jr : Int
  jc : Int
deriving DecidableEq

/-- Mirrors `_build_solver_data`: for each valid cell and direction whose
landing cell is valid, record the (from, to, jumped) bit triple and the
coordinates. -/
def buildMoves (cells : List Cell) : List PMove :=
  cells.flatMap fun rc =>
    directions.filterMap fun d =>
      let toR := rc.1 + d.1
      let toC := rc.2 + d.2
      let jR := rc.1 + d.1 / 2
      let jC := rc.2 + d.2 / 2
      if (toR, toC) ∈ cells then
        some ⟨1 <<< idxOf cells rc, 1 <<< idxOf cells (toR, toC),
          1 <<< idxOf cells (jR, jC), rc.1, rc.2, toR, toC, jR, jC⟩
      else none

/-! ### State codec (solver.py `_board_to_bits`, `_bits_to_board`) -/

/-- Reading `board[r][c]` from a list-of-lists board (valid cells are always
in range for full-size boards, so the defaulting never fires there). -/
def boardGet (b : List (List Bool)) (r c : Nat) : Bool :=
  (b.getD r []).getD c false

/-- Loop body of `_board_to_bits`: `i` is the running enumeration index,
`bits` the accumulator; `bits |= (1 << i)` when the cell is occupied. -/
def bitsGo (b : List (List Bool)) : List Cell → Nat → Nat → Nat
  | [], _, bits => bits
  | p :: rest, i, bits =>
      bitsGo b rest (i + 1) (if boardGet b p.1.toNat p.2.toNat then bits ||| (1 <<< i) else bits)

/-- Mirrors `_board_to_bits`: convert a boolean board to a single integer
bitmask over the given shape's valid cells. -/
def boardToBits (b : List (List Bool)) (cells : List Cell) : Nat :=
  bitsGo b cells 0 0

/-- Writing `board[r][c] = True` into a list-of-lists board. -/
def setCell (b : List (List Bool)) (r c : Nat) : List (List Bool) :=
  b.set r ((b.getD r []).set c true)

/-- Loop body of `_bits_to_board`: set the cell when `bits & (1 << i)` is
nonzero. -/
def decodeGo (bits : Nat) : List Cell → Nat → List (List Bool) → List (List Bool)
  | [], _, b => b
  | p :: rest, i, b =>
      decodeGo bits rest (i + 1)
        (if bits &&& (1 <<< i) ≠ 0 then setCell b p.1.toNat p.2.toNat else b)

/-- Mirrors `_bits_to_board`: convert a bitmask integer back to a
rows-by-cols boolean board. -/
def bitsToBoard (bits : Nat) (shape : Shape) : List (List Bool) :=
  decodeGo bits shape.validCells 0
    (List.replicate shape.rows (List.replicate shape.cols false))

/-- Mirrors the board constructor used by the tests and `prepopulate_cache.py`
(`_make_board` / `build_board`): an all-false grid with the listed cells set. -/
def mkBoard (rows cols : Nat) (marbles : List Cell) : List (List Bool) :=
  marbles.foldl (fun b p => setCell b p.1.toNat p.2.toNat)
    (List.replicate rows (List.replicate cols false))

/-! ### Popcount (`bin(state).count('1')`) -/

/-- Fuel-driven binary digit count; the fuel only serves structural
termination and is irrelevant once it is at least `n`. -/
def popcountGo : Nat → Nat → Nat
  | 0, _ => 0
  | fuel + 1, n => if n = 0 then 0 else n % 2 + popcountGo fuel (n / 2)

/-- Mirrors `bin(state).count('1')`: the number of 1 digits in the binary
representation. -/
def popcount (n : Nat) : Nat :=
  popcountGo n n

/-! ### Backtracking solver (solver.py `solve`) -/

/-- The mutable search context captured by the nested `dfs` closure:
the `failed` memo set (as a duplicate-free list), the `check_interval`
counter and the `timed_out` flag. -/
structure Ctx where
  failed : List Nat
  checkCount : Nat
  timedOut : Bool
deriving DecidableEq

/-- The legality test of the inner move loop: `state & from_bit` nonzero,
`state & to_bit` zero, `state & jump_bit` nonzero. -/
def legalPM (state : Nat) (m : PMove) : Bool :=
  state &&& m.fromBit ≠ 0 && state &&& m.toBit = 0 && state &&& m.jumpBit ≠ 0

/-- Python `s & ~b` on unbounded nonnegative ints clears the bits of `b`
from `s`; since `s &&& b` is a submask of `s` this equals `s ^^^ (s &&& b)`
(and `Nat.ldiff s b`, see `andNot_eq_ldiff`). -/
def andNot (s b : Nat) : Nat :=
  s ^^^ (s &&& b)

/-- Applying a move to a bitmask:
`(state & ~from_bit & ~jump_bit) | to_bit`. -/
def applyPM (state : Nat) (m : PMove) : Nat :=
  andNot (andNot state m.fromBit) m.jumpBit ||| m.toBit

/-- Applying a whole move list in order. -/
def applyPath (state : Nat) : List PMove → Nat
  | [] => state
  | m :: ms => applyPath (applyPM state m) ms

/-- The `for ... in moves_list` loop of `dfs`: try each move in table order;
on success prepend the move to the returned path (the Python code pushes to
and pops from a shared `solution` list); after a failed recursive call bail
out if the timeout flag was set, else continue with the next move. `next`
is the recursive `dfs` call at `remaining - 1`. -/
def dfsLoop (next : Nat → Ctx → Option (List PMove) × Ctx) :
    List PMove → Nat → Ctx → Option (List PMove) × Ctx
  | [], _, ctx => (none, ctx)
  | m :: rest, state, ctx =>
      if legalPM state m then
        match next (applyPM state m) ctx with
        | (some path, ctx1) => (some (m :: path), ctx1)
        | (none, ctx1) =>
            if ctx1.timedOut then (none, ctx1) else dfsLoop next rest state ctx1
      else dfsLoop next rest state ctx

/-- The recursive `dfs(state, remaining)` of `solve`, with the wall clock
abstracted as `clock : Nat → Bool` (the value of `time.monotonic() > deadline`
as a function of the call counter). Fuel 0 is never reached by the source
(`remaining >= 1` always); `remaining == 1` returns success immediately,
before the time check. Every 4096 counted calls the clock is sampled; a
positive sample or a stale `timed_out` flag returns failure at once.
States proven dead are added to `failed` (capped at 1,000,000 entries)
unless the search timed out. -/
def dfs (moves : List PMove) (clock : Nat → Bool) (hasLimit : Bool) :
    Nat → Nat → Ctx → Option (List PMove) × Ctx
  | 0 => fun _ ctx => (none, ctx)
  | 1 => fun _ ctx => (some [], ctx)
  | rem + 2 => fun state ctx =>
      let cc := ctx.checkCount + 1
      let triggered := cc &&& 4095 = 0 && clock cc
      if hasLimit then
        if triggered || ctx.timedOut then
          (none, ⟨ctx.failed, cc, true⟩)
        else if state ∈ ctx.failed then
          (none, ⟨ctx.failed, cc, ctx.timedOut⟩)
        else
          match dfsLoop (dfs moves clock hasLimit (rem + 1)) moves state
              ⟨ctx.failed, cc, ctx.timedOut⟩ with
          | (some p, ctx1) => (some p, ctx1)
          | (none, ctx1) =>
              if ¬ctx1.timedOut ∧ ctx1.failed.length < 1000000 then
                (none, ⟨state :: ctx1.failed, ctx1.checkCount, ctx1.timedOut⟩)
              else (none, ctx1)
      else
        if state ∈ ctx.failed then
          (none, ctx)
        else
          match dfsLoop (dfs moves clock hasLimit (rem + 1)) moves state ctx with
          | (some p, ctx1) => (some p, ctx1)
          | (none, ctx1) =>
              if ¬ctx1.timedOut ∧ ctx1.failed.length < 1000000 then
                (none, ⟨state :: ctx1.failed, ctx1.checkCount, ctx1.timedOut⟩)
              else (none, ctx1)

/-- Mirrors `solve` but also returns the final search context: encode the
board, count stones, answer `[]` straight away for at most one stone, else
run the depth-first search. The `progress_callback` reporting has no effect
on the search and is omitted. -/
def solveTFull (cells : List Cell) (moves : List PMove) (clock : Nat → Bool)
    (hasLimit : Bool) (board : List (List Bool)) : Option (List PMove) × Ctx :=
  let state := boardToBits board cells
  let stoneCount := popcount state
  if stoneCount ≤ 1 then (some [], ⟨[], 0, false⟩)
  else dfs moves clock hasLimit stoneCount state ⟨[], 0, false⟩

/-- The return value of `solve`: the move list, or `None`. -/
def solveT (cells : List Cell) (moves : List PMove) (clock : Nat → Bool)
    (hasLimit : Bool) (board : List (List Bool)) : Option (List PMove) :=
  (solveTFull cells moves clock hasLimit board).1

/-- `solve(board, ..., shape_id=...)` for a registered shape: solver data is
derived from the shape's valid cells (`get_solver_data`). -/
def solveShape (shape : Shape) (clock : Nat → Bool) (hasLimit : Bool)
    (board : List (List Bool)) : Option (List PMove) :=
  solveT shape.validCells (buildMoves shape.validCells) clock hasLimit board

/-- A clock whose deadline has already passed at every sample. -/
def clockTrue : Nat → Bool := fun _ => true

/-- A clock whose deadline never passes. -/
def clockFalse : Nat → Bool := fun _ => false

/-- A move whose three masks are distinct single bits, as produced by the
move-table builder for a duplicate-free cell list. -/
def GoodMove (m : PMove) : Prop :=
  ∃ a b c : Nat, a ≠ b ∧ a ≠ c ∧ b ≠ c ∧
    m.fromBit = 2 ^ a ∧ m.toBit = 2 ^ b ∧ m.jumpBit = 2 ^ c

/-- Executable check for `GoodMove` (a power of two is recovered by its
`log2`). -/
def goodMoveB (m : PMove) : Bool :=
  m.fromBit = 2 ^ m.fromBit.log2 && m.toBit = 2 ^ m.toBit.log2 &&
    m.jumpBit = 2 ^ m.jumpBit.log2 &&
    m.fromBit.log2 ≠ m.toBit.log2 && m.fromBit.log2 ≠ m.jumpBit.log2 &&
    m.toBit.log2 ≠ m.jumpBit.log2

/-- Each move of a list is legal in the state reached by applying the moves
before it. -/
def LegalSeq (state : Nat) : List PMove → Prop
  | [] => True
  | m :: ms => legalPM state m = true ∧ LegalSeq (applyPM state m) ms

instance : ∀ s ms, Decidable (LegalSeq s ms) := fun s ms => by
  induction ms generalizing s with
  | nil => exact .isTrue trivial
  | cons m t ih => exact @instDecidableAnd _ _ _ (ih (applyPM s m))

/-! ### Solution cache (solver_cache.py) -/

/-- A move dict as carried by solutions and the cache:
from/to/jump row-col coordinates. -/
structure CMove where
  fromRow : Int
  fromCol : Int
  toRow : Int
  toCol : Int
  jumpRow : Int
  jumpCol : Int
deriving DecidableEq

/-- The move dict appended to `solution` by `dfs`, projected from a table
entry. -/
def pmToDict (m : PMove) : CMove :=
  ⟨m.fr, m.fc, m.tr, m.tc, m.jr, m.jc⟩

/-- Mirrors `_cache_key` (and the identical `SolverQueue._queue_key`): the
DynamoDB hash key string, shape-prefixed for non-wiegleb shapes and
`diag:`-prefixed when diagonals are allowed. -/
def cacheKey (boardBits : Nat) (shapeId : String) (allowDiagonals : Bool) : String :=
  if allowDiagonals then
    if shapeId = "wiegleb" then "diag:" ++ toString boardBits
    else "diag:" ++ shapeId ++ ":" ++ toString boardBits
  else
    if shapeId = "wiegleb" then toString boardBits
    else shapeId ++ ":" ++ toString boardBits

/-- The valid-cell list `get_solver_data(shape_id)` yields; registered ids
only (the source raises `KeyError` otherwise, and every caller passes a
registered id). -/
def solverCells (shapeId : String) : List Cell :=
  ((lookupShape shapeId).map Shape.validCells).getD []

/-- Mirrors `_apply_move_to_bits`: rebuild the three single-bit masks from
the move's coordinates through the shape's `cell_index` and apply
`(state & ~from_bit & ~jump_bit) | to_bit`. -/
def applyMoveToBits (state : Nat) (move : CMove) (shapeId : String) : Nat :=
  let cells := solverCells shapeId
  let fromBit := 1 <<< idxOf cells (move.fromRow, move.fromCol)
  let toBit := 1 <<< idxOf cells (move.toRow, move.toCol)
  let jumpBit := 1 <<< idxOf cells (move.jumpRow, move.jumpCol)
  andNot (andNot state fromBit) jumpBit ||| toBit

/-- The `solution` attribute of a cache item: a serialized move list or one
of the sentinels `"NO_SOLUTION"` / `"QUEUED"`. -/
inductive StoredSol where
  | noSolution
  | queued
  | moves (ms : List CMove)
deriving DecidableEq

/-- A solver-cache DynamoDB item (minus its hash key): solution payload,
stone count, creation timestamp. -/
structure CacheItem where
  solution : StoredSol
  stoneCount : Int
  createdAt : String
deriving DecidableEq

/-- A DynamoDB table as an association list with unique keys. -/
abbrev Table (V : Type) := List (String × V)

/-- Per-item get on a key-value table. -/
def lookupKey {V : Type} : Table V → String → Option V
  | [], _ => none
  | (k1, v1) :: t, k => if k1 = k then some v1 else lookupKey t k

/-- Unconditional `put_item`: overwrite the item with that key, or insert a
fresh one. -/
def putKV {V : Type} : Table V → String → V → Table V
  | [], k, v => [(k, v)]
  | (k1, v1) :: t, k, v => if k1 = k then (k, v) :: t else (k1, v1) :: putKV t k v

/-- Mirrors `SolverCache.get_solution`: look up the cached payload by board
bitmask (`None` on a miss; store errors are caught and also yield `None`). -/
def getSolution (table : Table CacheItem) (boardBits : Nat) (shapeId : String)
    (allowDiagonals : Bool) : Option StoredSol :=
  (lookupKey table (cacheKey boardBits shapeId allowDiagonals)).map CacheItem.solution

/-- Mirrors `SolverCache.put_solution`. -/
def putSolution (table : Table CacheItem) (boardBits : Nat) (solution : List CMove)
    (stoneCount : Int) (shapeId : String) (allowDiagonals : Bool) (now : String) :
    Table CacheItem :=
  putKV table (cacheKey boardBits shapeId allowDiagonals) ⟨.moves solution, stoneCount, now⟩

/-- Mirrors `SolverCache.put_no_solution`. -/
def putNoSolution (table : Table CacheItem) (boardBits : Nat) (stoneCount : Int)
    (shapeId : String) (allowDiagonals : Bool) (now : String) : Table CacheItem :=
  putKV table (cacheKey boardBits shapeId allowDiagonals) ⟨.noSolution, stoneCount, now⟩

/-- Mirrors `SolverCache.put_queued`. -/
def putQueued (table : Table CacheItem) (boardBits : Nat) (stoneCount : Int)
    (shapeId : String) (allowDiagonals : Bool) (now : String) : Table CacheItem :=
  putKV table (cacheKey boardBits shapeId allowDiagonals) ⟨.queued, stoneCount, now⟩

/-- The loop of `cache_solution_path`: for each i, write the remaining
suffix `solution[i:]` keyed by the current state with the current stone
count, then advance the state by the move and decrement the count.
(`batch_writer` only chunks the same sequence of puts.) -/
def cachePathGo (shapeId : String) (allowDiagonals : Bool) (now : String) :
    Table CacheItem → Nat → Int → List CMove → Table CacheItem
  | table, _, _, [] => table
  | table, cur, remStones, m :: rest =>
      let table1 := putKV table (cacheKey cur shapeId allowDiagonals)
        ⟨.moves (m :: rest), remStones, now⟩
      cachePathGo shapeId allowDiagonals now table1 (applyMoveToBits cur m shapeId)
        (remStones - 1) rest

/-- Mirrors `SolverCache.cache_solution_path`: cache every intermediate
state along the solution path. -/
def cacheSolutionPath (table : Table CacheItem) (boardBits : Nat)
    (solution : List CMove) (stoneCount : Int) (shapeId : String)
    (allowDiagonals : Bool) (now : String) : Table CacheItem :=
  cachePathGo shapeId allowDiagonals now table boardBits stoneCount solution

/-- The successive states whose keys `cache_solution_path` writes: the state
before each move of the list. -/
def pathStates (shapeId : String) : Nat → List CMove → List Nat
  | _, [] => []
  | cur, m :: rest => cur :: pathStates shapeId (applyMoveToBits cur m shapeId) rest

/-! ### Work queue (solver_queue.py) -/

/-- A solver-queue DynamoDB item (minus its hash key). The status is the
bare string field of the source: one of `pending`, `solving`, `solved`,
`failed`. -/
structure QItem where
  stoneCount : Int
  shapeId : String
  allowDiagonals : Bool
  status : String
  createdAt : String
  updatedAt : String
deriving DecidableEq

/-- The conditional-put error DynamoDB raises when a condition fails. -/
inductive CondErr where
  | conditionalCheckFailed
deriving DecidableEq

/-- The store-level conditional `put_item` issued by `SolverQueue.enqueue`,
with condition `attribute_not_exists(board_state) OR status IN (pending,
failed)`. -/
def enqueuePut (table : Table QItem) (boardBits : Nat) (stoneCount : Int)
    (shapeId : String) (allowDiagonals : Bool) (now : String) :
    Except CondErr (Table QItem) :=
  let key := cacheKey boardBits shapeId allowDiagonals
  let item : QItem := ⟨stoneCount, shapeId, allowDiagonals, "pending", now, now⟩
  match lookupKey table key with
  | none => .ok (putKV table key item)
  | some existing =>
      if existing.status = "pending" ∨ existing.status = "failed" then
        .ok (putKV table key item)
      else .error .conditionalCheckFailed

/-- Mirrors `SolverQueue.enqueue`: the conditional put with
`ConditionalCheckFailedException` silently swallowed (idempotent enqueue,
no error to the caller). -/
def enqueue (table : Table QItem) (boardBits : Nat) (stoneCount : Int)
    (shapeId : String) (allowDiagonals : Bool) (now : String) : Table QItem :=
  match enqueuePut table boardBits stoneCount shapeId allowDiagonals now with
  | .ok table1 => table1
  | .error .conditionalCheckFailed => table

/-- Mirrors `SolverQueue.mark_solved` (and the identical `mark_failed`):
delete the item. -/
def markSolved (table : Table QItem) (boardBits : Nat) (shapeId : String)
    (allowDiagonals : Bool) : Table QItem :=
  table.filter (fun kv => kv.1 ≠ cacheKey boardBits shapeId allowDiagonals)

/-! ### Hint route (app.py `get_game_hint`) -/

/-- The JSON value returned in the `hint` field: a move dict, or the first
character of a sentinel string (`cached[0]` applied to `"NO_SOLUTION"` or
`"QUEUED"` yields its first character). -/
inductive HintVal where
  | move (m : CMove)
  | strChar (c : Char)
deriving DecidableEq

/-- Python truthiness of a `get_solution` result: sentinel strings are
nonempty hence truthy, a move list is truthy when nonempty. -/
def cachedTruthy : StoredSol → Bool
  | .noSolution => true
  | .queued => true
  | .moves [] => false
  | .moves (_ :: _) => true

/-- `cached[0]`: the first move of a list, or the first character of a
sentinel string. -/
def cachedFirst : StoredSol → HintVal
  | .noSolution => .strChar 'N'
  | .queued => .strChar 'Q'
  | .moves [] => .strChar ' '
  | .moves (m :: _) => .move m

/-- Counting occupied cells of the request grid:
`sum(1 for row in board for cell in row if cell)`. -/
def gridCount (board : List (List Bool)) : Nat :=
  (board.map (fun row => row.countP (fun c => c))).sum

/-- The cache-miss tail of the `get_game_hint` route: live solve with a
bounded deadline (5s or 10s depending on the stone count; the wall clock is
abstracted by `clock`), write-through of the whole path on success. -/
def getGameHintSolve (cache : Table CacheItem) (queue : Table QItem)
    (board : List (List Bool)) (clock : Nat → Bool) (now : String)
    (stoneCount : Nat) (bits : Nat) :
    Option HintVal × Table CacheItem × Table QItem :=
  match solveT wieglebShape.validCells (buildMoves wieglebShape.validCells)
      clock true board with
  | some (m :: rest) =>
      (some (.move (pmToDict m)),
        cacheSolutionPath cache bits ((m :: rest).map pmToDict) (Int.ofNat stoneCount)
          "wiegleb" false now,
        queue)
  | some [] => (none, cache, queue)
  | none => (none, cache, queue)

/-- Mirrors the `get_game_hint` route: encode the 9x9 board (default
wiegleb shape), consult the solver cache and return `cached[0]` when the
cached value is truthy; otherwise fall through to the bounded live solve.
The route never touches the work queue, which is passed through
unchanged. -/
def getGameHint (cache : Table CacheItem) (queue : Table QItem)
    (board : List (List Bool)) (clock : Nat → Bool) (now : String) :
    Option HintVal × Table CacheItem × Table QItem :=
  let stoneCount := gridCount board
  let bits := boardToBits board wieglebShape.validCells
  match getSolution cache bits "wiegleb" false with
  | some cached =>
      if cachedTruthy cached then (some (cachedFirst cached), cache, queue)
      else getGameHintSolve cache queue board clock now stoneCount bits
  | none => getGameHintSolve cache queue board clock now stoneCount bits

/-! ### Queue worker (solve_queue.py `solve_item`) -/

/-- A claimed queue item as consumed by `solve_item`, with `board_bits`
already parsed out of the hash key (`int(raw_key.split(':')[-1])`) and the
dict fields read with their defaults. -/
structure WorkItem where
  bits : Nat
  stoneCount : Int
  shapeId : String
  allowDiagonals : Bool
deriving DecidableEq

/-- A Python exception escaping `solve_item`. -/
inductive PyErr where
  | typeError
  | keyError
deriving DecidableEq

/-- Parameter names accepted by `solver.solve` (from its `def` line). -/
def solveParams : List String :=
  ["board", "time_limit", "progress_callback", "shape_id"]

/-- Keyword arguments passed at the `solve(...)` call site in `solve_item`. -/
def solveItemKwargs : List String :=
  ["time_limit", "shape_id", "allow_diagonals"]

/-- Python call semantics for that call site: a keyword argument not among
the callee's parameters raises `TypeError` before the callee runs. -/
def callSolveFromWorker (cells : List Cell) (moves : List PMove)
    (clock : Nat → Bool) (board : List (List Bool)) :
    Except PyErr (Option (List PMove)) :=
  if solveItemKwargs.all (fun kw => solveParams.contains kw) then
    .ok (solveT cells moves clock true board)
  else .error .typeError

/-- Mirrors `solve_item`: decode the item's board, run the 30-minute solve,
then on success write the whole path through the cache and delete the queue
item, else negative-cache the state and delete the queue item. The result
carries the updated cache and queue tables. -/
def solveItem (cache : Table CacheItem) (queue : Table QItem) (item : WorkItem)
    (clock : Nat → Bool) (now : String) :
    Except PyErr (Table CacheItem × Table QItem) :=
  match lookupShape item.shapeId with
  | none => .error .keyError
  | some shape =>
      let board := bitsToBoard item.bits shape
      match callSolveFromWorker shape.validCells (buildMoves shape.validCells)
          clock board with
      | .error e => .error e
      | .ok solution =>
          match solution with
          | some (m :: rest) =>
              .ok (cacheSolutionPath cache item.bits ((m :: rest).map pmToDict)
                  item.stoneCount item.shapeId item.allowDiagonals now,
                markSolved queue item.bits item.shapeId item.allowDiagonals)
          | some [] =>
              .ok (putNoSolution cache item.bits item.stoneCount item.shapeId
                  item.allowDiagonals now,
                markSolved queue item.bits item.shapeId item.allowDiagonals)
          | none =>
              .ok (putNoSolution cache item.bits item.stoneCount item.shapeId
                  item.allowDiagonals now,
                markSolved queue item.bits item.shapeId item.allowDiagonals)

/-! ### Bit-level lemmas -/

theorem and_two_pow_ne_zero_iff (s i : Nat) : s &&& 2 ^ i ≠ 0 ↔ s.testBit i = true := by
  constructor
  · intro h
    by_contra hbit
    apply h
    refine Nat.eq_of_testBit_eq fun k => ?_
    rw [Nat.testBit_and, Nat.zero_testBit]
    rcases eq_or_ne i k with rfl | hik
    · simp [Bool.eq_false_iff.mpr hbit]
    · simp [Nat.testBit_two_pow_of_ne hik]
  · intro h hz
    have : (s &&& 2 ^ i).testBit i = true := by
      rw [Nat.testBit_and, h, Nat.testBit_two_pow_self]
      rfl
    rw [hz, Nat.zero_testBit] at this
    exact Bool.false_ne_true this

theorem and_one_shiftLeft_ne_zero_iff (s i : Nat) :
    s &&& (1 <<< i) ≠ 0 ↔ s.testBit i = true := by
  rw [Nat.one_shiftLeft]
  exact and_two_pow_ne_zero_iff s i

theorem testBit_andNot (s b i : Nat) :
    (andNot s b).testBit i = (s.testBit i && !(b.testBit i)) := by
  rw [andNot, Nat.testBit_xor, Nat.testBit_and]
  cases s.testBit i <;> cases b.testBit i <;> rfl

theorem andNot_eq_ldiff (s b : Nat) : andNot s b = Nat.ldiff s b := by
  refine Nat.eq_of_testBit_eq fun i => ?_
  rw [testBit_andNot, Nat.testBit_ldiff]

theorem testBit_applyPM (s : Nat) (m : PMove) (i : Nat) :
    (applyPM s m).testBit i =
      ((s.testBit i && !(m.fromBit.testBit i)) && !(m.jumpBit.testBit i)
        || m.toBit.testBit i) := by
  rw [applyPM, Nat.testBit_or, testBit_andNot, testBit_andNot]

/-! ### Popcount lemmas -/

theorem popcountGo_zero (fuel : Nat) : popcountGo fuel 0 = 0 := by
  cases fuel <;> rfl

theorem popcountGo_fuel : ∀ n f1 f2, n ≤ f1 → n ≤ f2 →
    popcountGo f1 n = popcountGo f2 n := by
  intro n
  induction n using Nat.strong_induction_on with
  | _ n ih =>
    intro f1 f2 h1 h2
    rcases Nat.eq_zero_or_pos n with rfl | hn
    · rw [popcountGo_zero, popcountGo_zero]
    · obtain ⟨g1, rfl⟩ : ∃ g1, f1 = g1 + 1 :=
        ⟨f1 - 1, (Nat.succ_pred_eq_of_pos (Nat.lt_of_lt_of_le hn h1)).symm⟩
      obtain ⟨g2, rfl⟩ : ∃ g2, f2 = g2 + 1 :=
        ⟨f2 - 1, (Nat.succ_pred_eq_of_pos (Nat.lt_of_lt_of_le hn h2)).symm⟩
      have hne : n ≠ 0 := Nat.pos_iff_ne_zero.mp hn
      have hdiv : n / 2 < n := Nat.div_lt_self hn (by decide)
      rw [popcountGo, popcountGo, if_neg hne, if_neg hne]
      congr 1
      exact ih (n / 2) hdiv g1 g2 (Nat.le_of_lt_succ (Nat.lt_of_lt_of_le hdiv h1))
        (Nat.le_of_lt_succ (Nat.lt_of_lt_of_le hdiv h2))

theorem popcount_pos_eq (n : Nat) (hn : n ≠ 0) :
    popcount n = n % 2 + popcount (n / 2) := by
  obtain ⟨m, rfl⟩ : ∃ m, n = m + 1 :=
    ⟨n - 1, (Nat.succ_pred_eq_of_pos (Nat.pos_of_ne_zero hn)).symm⟩
  show popcountGo (m + 1) (m + 1) = (m + 1) % 2 + popcount ((m + 1) / 2)
  rw [popcountGo, if_neg hn]
  congr 1
  exact popcountGo_fuel ((m + 1) / 2) m ((m + 1) / 2)
    (Nat.le_of_lt_succ (Nat.div_lt_self (Nat.succ_pos m) (by decide))) (Nat.le_refl _)

/-- The number of set bits below `W`. -/
def bitsCard (n W : Nat) : Nat :=
  ((Finset.range W).filter (fun i => n.testBit i)).card

theorem popcount_eq_bitsCard : ∀ W n, n < 2 ^ W → popcount n = bitsCard n W := by
  intro W
  induction W with
  | zero =>
    intro n hn
    interval_cases n
    rfl
  | succ W ih =>
    intro n hn
    rcases Nat.eq_zero_or_pos n with rfl | hpos
    · simp [popcount, popcountGo_zero, bitsCard]
    · have hne : n ≠ 0 := Nat.pos_iff_ne_zero.mp hpos
      have hdiv : n / 2 < 2 ^ W := by
        rw [Nat.pow_succ] at hn
        exact Nat.div_lt_iff_lt_mul (by decide) |>.mpr hn
      have hcard : bitsCard n (W + 1) =
          bitsCard (n / 2) W + (if n.testBit 0 = true then 1 else 0) := by
        unfold bitsCard
        rw [Finset.card_filter, Finset.card_filter, Finset.sum_range_succ']
        congr 1
        exact Finset.sum_congr rfl fun i _ => by rw [Nat.testBit_add_one]
      have hbit0 : (if n.testBit 0 = true then 1 else 0) = n % 2 := by
        rw [Nat.testBit_zero]
        rcases Nat.mod_two_eq_zero_or_one n with h | h <;> simp [h]
      rw [popcount_pos_eq n hne, ih (n / 2) hdiv]
      omega

theorem popcount_lt_two_pow_self (n : Nat) : n < 2 ^ n :=
  Nat.lt_two_pow n

theorem popcount_applyPM (s : Nat) (m : PMove) (a b c : Nat)
    (hab : a ≠ b) (hac : a ≠ c) (hbc : b ≠ c)
    (hf : m.fromBit = 2 ^ a) (ht : m.toBit = 2 ^ b) (hj : m.jumpBit = 2 ^ c)
    (hsa : s.testBit a = true) (hsb : s.testBit b = false)
    (hsc : s.testBit c = true) :
    popcount (applyPM s m) = popcount s - 1 := by
  set W := s + b + 1 with hW
  have hsW : s < 2 ^ W := Nat.lt_of_lt_of_le (Nat.lt_two_pow s)
    (Nat.pow_le_pow_right (by decide) (by omega))
  have hbW : b < W := by omega
  have haW : a < W := by
    have := Nat.testBit_implies_ge hsa
    have h2 : 2 ^ a ≤ s := this
    have : a < 2 ^ a := Nat.lt_two_pow a
    omega
  have hcW : c < W := by
    have h2 : 2 ^ c ≤ s := Nat.testBit_implies_ge hsc
    have : c < 2 ^ c := Nat.lt_two_pow c
    omega
  have happly : ∀ i, (applyPM s m).testBit i =
      ((s.testBit i && !(decide (a = i))) && !(decide (c = i)) || decide (b = i)) := by
    intro i
    rw [testBit_applyPM, hf, ht, hj, Nat.testBit_two_pow, Nat.testBit_two_pow,
      Nat.testBit_two_pow]
  have hnewW : applyPM s m < 2 ^ W := by
    refine Nat.lt_pow_two_of_testBit _ fun i hi => ?_
    rw [happly i]
    have hsi : s.testBit i = false :=
      Nat.testBit_lt_two_pow (Nat.lt_of_lt_of_le hsW
        (Nat.pow_le_pow_right (by decide) hi))
    have : b ≠ i := by omega
    simp [hsi, this]
  rw [popcount_eq_bitsCard W s hsW, popcount_eq_bitsCard W _ hnewW]
  unfold bitsCard
  set A := (Finset.range W).filter (fun i => s.testBit i) with hA
  have haA : a ∈ A := Finset.mem_filter.mpr ⟨Finset.mem_range.mpr haW, hsa⟩
  have hcA : c ∈ A := Finset.mem_filter.mpr ⟨Finset.mem_range.mpr hcW, hsc⟩
  have hbA : b ∉ A := fun h => by
    have := (Finset.mem_filter.mp h).2
    rw [hsb] at this
    exact Bool.false_ne_true this
  have hset : (Finset.range W).filter (fun i => (applyPM s m).testBit i) =
      insert b ((A.erase a).erase c) := by
    ext i
    simp only [Finset.mem_filter, Finset.mem_insert, Finset.mem_erase, Finset.mem_range, hA]
    rw [happly i]
    simp only [Bool.or_eq_true, Bool.and_eq_true, Bool.not_eq_true',
      decide_eq_true_eq, decide_eq_false_iff_not]
    constructor
    · rintro ⟨hiW, ⟨⟨hsi, hai⟩, hci⟩ | hbi⟩
      · exact Or.inr ⟨fun h => hci h.symm, fun h => hai h.symm, hiW, hsi⟩
      · exact Or.inl hbi.symm
    · rintro (rfl | ⟨hic, hia, hiW, hsi⟩)
      · exact ⟨hbW, Or.inr rfl⟩
      · exact ⟨hiW, Or.inl ⟨⟨hsi, fun h => hia h.symm⟩, fun h => hic h.symm⟩⟩
  rw [hset]
  have hbnotin : b ∉ (A.erase a).erase c := fun h =>
    hbA (Finset.mem_of_mem_erase (Finset.mem_of_mem_erase h))
  rw [Finset.card_insert_of_not_mem hbnotin]
  have hcerase : c ∈ A.erase a := Finset.mem_erase.mpr ⟨fun h => hac h.symm, hcA⟩
  rw [Finset.card_erase_of_mem hcerase, Finset.card_erase_of_mem haA]
  have h2 : 2 ≤ A.card := by
    have h1 : 1 ≤ (A.erase a).card := Finset.card_pos.mpr ⟨c, hcerase⟩
    have := Finset.card_erase_of_mem haA
    omega
  omega

/-! ### Solver search lemmas -/

theorem dfsLoop_some (next : Nat → Ctx → Option (List PMove) × Ctx) :
    ∀ (pending : List PMove) (state : Nat) (ctx : Ctx) (p : List PMove) (ctx1 : Ctx),
      dfsLoop next pending state ctx = (some p, ctx1) →
      ∃ m tail ctxA, m ∈ pending ∧ legalPM state m = true ∧ p = m :: tail ∧
        next (applyPM state m) ctxA = (some tail, ctx1) := by
  intro pending
  induction pending with
  | nil =>
    intro state ctx p ctx1 h
    simp [dfsLoop] at h
  | cons m rest ih =>
    intro state ctx p ctx1 h
    rw [dfsLoop] at h
    split at h
    · split at h
      · rename_i hleg x path ctxA heq
        injection h with h1 h2
        injection h1 with h1
        exact ⟨m, path, ctx, List.mem_cons_self m rest, hleg, h1.symm,
          by rw [heq, h2]⟩
      · rename_i hleg x ctxA heq
        split at h
        · simp at h
        · obtain ⟨m1, tail, ctxB, hmem, hleg1, hp, hnext1⟩ := ih state ctxA p ctx1 h
          exact ⟨m1, tail, ctxB, List.mem_cons_of_mem m hmem, hleg1, hp, hnext1⟩
    · obtain ⟨m1, tail, ctxB, hmem, hleg1, hp, hnext1⟩ := ih state ctx p ctx1 h
      exact ⟨m1, tail, ctxB, List.mem_cons_of_mem m hmem, hleg1, hp, hnext1⟩

theorem legal_good_popcount (state : Nat) (m : PMove) (hg : GoodMove m)
    (hleg : legalPM state m = true) :
    popcount (applyPM state m) = popcount state - 1 := by
  obtain ⟨a, b, c, hab, hac, hbc, hf, ht, hj⟩ := hg
  have hparts := hleg
  rw [legalPM] at hparts
  simp only [Bool.and_eq_true, decide_eq_true_eq, ne_eq] at hparts
  obtain ⟨⟨hfa, htb⟩, hjc⟩ := hparts
  rw [hf] at hfa
  rw [ht] at htb
  rw [hj] at hjc
  have hsa : state.testBit a = true := (and_two_pow_ne_zero_iff state a).mp hfa
  have hsc : state.testBit c = true := (and_two_pow_ne_zero_iff state c).mp hjc
  have hsb : state.testBit b = false := by
    by_contra hx
    have : state &&& 2 ^ b ≠ 0 :=
      (and_two_pow_ne_zero_iff state b).mpr (Bool.not_eq_false _ |>.mp hx)
    exact this htb
  exact popcount_applyPM state m a b c hab hac hbc hf ht hj hsa hsb hsc

theorem legal_good_popcount_pos (state : Nat) (m : PMove) (hg : GoodMove m)
    (hleg : legalPM state m = true) : 2 ≤ popcount state := by
  obtain ⟨a, b, c, hab, hac, hbc, hf, ht, hj⟩ := hg
  have hparts := hleg
  rw [legalPM] at hparts
  simp only [Bool.and_eq_true, decide_eq_true_eq, ne_eq] at hparts
  obtain ⟨⟨hfa, _⟩, hjc⟩ := hparts
  rw [hf] at hfa
  rw [hj] at hjc
  have hsa : state.testBit a = true := (and_two_pow_ne_zero_iff state a).mp hfa
  have hsc : state.testBit c = true := (and_two_pow_ne_zero_iff state c).mp hjc
  have hW : state < 2 ^ (state + 1) :=
    Nat.lt_of_lt_of_le (Nat.lt_two_pow state) (Nat.pow_le_pow_right (by decide) (by omega))
  rw [popcount_eq_bitsCard (state + 1) state hW]
  have haW : a < state + 1 := by
    have h1 : 2 ^ a ≤ state := Nat.testBit_implies_ge hsa
    have h2 : a < 2 ^ a := Nat.lt_two_pow a
    omega
  have hcW : c < state + 1 := by
    have h1 : 2 ^ c ≤ state := Nat.testBit_implies_ge hsc
    have h2 : c < 2 ^ c := Nat.lt_two_pow c
    omega
  have hac2 : a ≠ c := hac
  have hsub : {a, c} ⊆ (Finset.range (state + 1)).filter (fun i => state.testBit i) := by
    intro x hx
    rcases Finset.mem_insert.mp hx with rfl | hx
    · exact Finset.mem_filter.mpr ⟨Finset.mem_range.mpr haW, hsa⟩
    · rw [Finset.mem_singleton.mp hx]
      exact Finset.mem_filter.mpr ⟨Finset.mem_range.mpr hcW, hsc⟩
  calc 2 = ({a, c} : Finset Nat).card := (Finset.card_pair hac2).symm
  _ ≤ _ := Finset.card_le_card hsub
theorem dfs_some_spec (moves : List PMove) (hGood : ∀ m ∈ moves, GoodMove m)
    (clock : Nat → Bool) (hl : Bool) :
    ∀ rem state ctx p ctx1, popcount state = rem →
      dfs moves clock hl rem state ctx = (some p, ctx1) →
      p.length = rem - 1 ∧ LegalSeq state p ∧ popcount (applyPath state p) = 1 ∧
        ∀ mv ∈ p, mv ∈ moves := by
  intro rem
  induction rem using Nat.strong_induction_on with
  | _ rem ih =>
    intro state ctx p ctx1 hpop h
    match rem, hpop, h with
    | 0, hpop, h =>
      simp [dfs] at h
    | 1, hpop, h =>
      rw [dfs] at h
      injection h with h1 h2
      injection h1 with h1
      subst h1
      exact ⟨rfl, trivial, hpop, by simp⟩
    | (k+2), hpop, h =>
      rw [dfs] at h
      dsimp only at h
      split at h
      · split at h
        · simp at h
        · split at h
          · simp at h
          · split at h
            · rename_i hmemo x path ctxL heq
              injection h with h1 h2
              injection h1 with h1
              subst h1
              subst h2
              obtain ⟨m, tail, ctxA, hmem, hlegm, hp, hnext⟩ :=
                dfsLoop_some _ moves state _ _ _ heq
              subst hp
              have hg := hGood m hmem
              have hpc : popcount (applyPM state m) = k + 1 := by
                rw [legal_good_popcount state m hg hlegm, hpop]
                omega
              obtain ⟨hlen, hseq, hfin, hmems⟩ :=
                ih (k+1) (by omega) (applyPM state m) ctxA tail ctxL hpc hnext
              refine ⟨?_, ⟨hlegm, hseq⟩, hfin, ?_⟩
              · simp only [List.length_cons]
                omega
              · intro mv hmv
                rcases List.mem_cons.mp hmv with rfl | hmv1
                · exact hmem
                · exact hmems mv hmv1
            · split at h
              · simp at h
              · simp at h
      · split at h
        · simp at h
        · split at h
          · rename_i x path ctxL heq
            injection h with h1 h2
            injection h1 with h1
            subst h1
            subst h2
            obtain ⟨m, tail, ctxA, hmem, hlegm, hp, hnext⟩ :=
              dfsLoop_some _ moves state _ _ _ heq
            subst hp
            have hg := hGood m hmem
            have hpc : popcount (applyPM state m) = k + 1 := by
              rw [legal_good_popcount state m hg hlegm, hpop]
              omega
            obtain ⟨hlen, hseq, hfin, hmems⟩ :=
              ih (k+1) (by omega) (applyPM state m) ctxA tail ctxL hpc hnext
            refine ⟨?_, ⟨hlegm, hseq⟩, hfin, ?_⟩
            · simp only [List.length_cons]
              omega
            · intro mv hmv
              rcases List.mem_cons.mp hmv with rfl | hmv1
              · exact hmem
              · exact hmems mv hmv1
          · split at h
            · simp at h
            · simp at h

/-! ### Move table wellformedness -/

theorem idxOf_lt_length_of_mem {cells : List Cell} {p : Cell} (h : p ∈ cells) :
    idxOf cells p < cells.length := by
  induction cells with
  | nil => simp at h
  | cons c t ih =>
    rw [idxOf]
    by_cases hc : c = p
    · simp [hc]
    · rcases List.mem_cons.mp h with rfl | hm
      · exact absurd rfl hc
      · simpa [hc] using ih hm

theorem idxOf_eq_length_of_not_mem {cells : List Cell} {p : Cell} (h : p ∉ cells) :
    idxOf cells p = cells.length := by
  induction cells with
  | nil => rfl
  | cons c t ih =>
    rw [idxOf]
    have hc : c ≠ p := fun hcp => h (hcp ▸ List.mem_cons_self c t)
    have ht : p ∉ t := fun hm => h (List.mem_cons_of_mem c hm)
    simp [hc, ih ht]

theorem idxOf_inj {cells : List Cell} (hnd : cells.Nodup) {p q : Cell}
    (hp : p ∈ cells) (hq : q ∈ cells) (h : idxOf cells p = idxOf cells q) : p = q := by
  induction cells with
  | nil => simp at hp
  | cons c t ih =>
    rw [idxOf, idxOf] at h
    have hnd2 : t.Nodup := (List.nodup_cons.mp hnd).2
    by_cases hcp : c = p
    · by_cases hcq : c = q
      · rw [← hcp, ← hcq]
      · rw [if_pos hcp, if_neg hcq] at h
        exact absurd h.symm (Nat.succ_ne_zero _)
    · by_cases hcq : c = q
      · rw [if_neg hcp, if_pos hcq] at h
        exact absurd h (Nat.succ_ne_zero _)
      · rw [if_neg hcp, if_neg hcq] at h
        have hp1 : p ∈ t := by
          rcases List.mem_cons.mp hp with rfl | hm
          · exact absurd rfl hcp
          · exact hm
        have hq1 : q ∈ t := by
          rcases List.mem_cons.mp hq with rfl | hm
          · exact absurd rfl hcq
          · exact hm
        exact ih hnd2 hp1 hq1 (Nat.succ_injective h)

theorem cell_add_ne (p : Cell) (d1 d2 : Int) (h : d1 ≠ 0 ∨ d2 ≠ 0) :
    p ≠ ((p.1 + d1, p.2 + d2) : Cell) := by
  intro hc
  have h1 : p.1 = p.1 + d1 := congrArg Prod.fst hc
  have h2 : p.2 = p.2 + d2 := congrArg Prod.snd hc
  rcases h with h | h
  · exact h (by omega)
  · exact h (by omega)

theorem cell_add_ne2 (p : Cell) (a1 a2 b1 b2 : Int) (h : a1 ≠ b1 ∨ a2 ≠ b2) :
    ((p.1 + a1, p.2 + a2) : Cell) ≠ ((p.1 + b1, p.2 + b2) : Cell) := by
  intro hc
  have h1 : p.1 + a1 = p.1 + b1 := congrArg Prod.fst hc
  have h2 : p.2 + a2 = p.2 + b2 := congrArg Prod.snd hc
  rcases h with h | h
  · exact h (by omega)
  · exact h (by omega)

theorem good_of_idx (cells : List Cell) (hnd : cells.Nodup) (rc dst jump : Cell)
    (m : PMove) (hrc : rc ∈ cells) (hto : dst ∈ cells)
    (h1 : rc ≠ dst) (h2 : rc ≠ jump) (h3 : dst ≠ jump)
    (hf : m.fromBit = 1 <<< idxOf cells rc) (ht : m.toBit = 1 <<< idxOf cells dst)
    (hj : m.jumpBit = 1 <<< idxOf cells jump) : GoodMove m := by
  refine ⟨idxOf cells rc, idxOf cells dst, idxOf cells jump, ?_, ?_, ?_,
    by rw [hf, Nat.one_shiftLeft], by rw [ht, Nat.one_shiftLeft],
    by rw [hj, Nat.one_shiftLeft]⟩
  · exact fun h => h1 (idxOf_inj hnd hrc hto h)
  · by_cases hjm : jump ∈ cells
    · exact fun h => h2 (idxOf_inj hnd hrc hjm h)
    · have ha := idxOf_eq_length_of_not_mem hjm
      have hb := idxOf_lt_length_of_mem hrc
      omega
  · by_cases hjm : jump ∈ cells
    · exact fun h => h3 (idxOf_inj hnd hto hjm h)
    · have ha := idxOf_eq_length_of_not_mem hjm
      have hb := idxOf_lt_length_of_mem hto
      omega

theorem buildMoves_good (cells : List Cell) (hnd : cells.Nodup) :
    ∀ m ∈ buildMoves cells, GoodMove m := by
  intro m hm
  rw [buildMoves] at hm
  obtain ⟨rc, hrc, hm⟩ := List.mem_flatMap.mp hm
  obtain ⟨d, hd, hmk⟩ := List.mem_filterMap.mp hm
  dsimp only at hmk
  have hdprops : (d.1 ≠ 0 ∨ d.2 ≠ 0) ∧ (d.1 / 2 ≠ 0 ∨ d.2 / 2 ≠ 0) ∧
      (d.1 ≠ d.1 / 2 ∨ d.2 ≠ d.2 / 2) := by
    fin_cases hd <;> exact ⟨by decide, by decide, by decide⟩
  split at hmk
  · rename_i hto
    injection hmk with hmk
    subst hmk
    exact good_of_idx cells hnd rc _ _ _ hrc hto
      (cell_add_ne rc d.1 d.2 hdprops.1)
      (cell_add_ne rc (d.1 / 2) (d.2 / 2) hdprops.2.1)
      (cell_add_ne2 rc d.1 d.2 (d.1 / 2) (d.2 / 2) hdprops.2.2)
      rfl rfl rfl
  · simp at hmk

/-! ### Path popcount lemmas -/

theorem legalSeq_popcount_step (p : List PMove) :
    ∀ (state : Nat), LegalSeq state p → (∀ mv ∈ p, GoodMove mv) →
      ∀ k, k < p.length →
        popcount (applyPath state (p.take (k + 1))) =
          popcount (applyPath state (p.take k)) - 1 := by
  induction p with
  | nil =>
    intro state _ _ k hk
    simp at hk
  | cons m rest ih =>
    intro state hseq hgood k hk
    obtain ⟨hleg, hrest⟩ := hseq
    cases k with
    | zero =>
      show popcount (applyPath (applyPM state m) []) = popcount (applyPath state []) - 1
      exact legal_good_popcount state m (hgood m (List.mem_cons_self m rest)) hleg
    | succ k =>
      show popcount (applyPath (applyPM state m) (rest.take (k + 1))) =
        popcount (applyPath (applyPM state m) (rest.take k)) - 1
      exact ih (applyPM state m) hrest
        (fun mv h => hgood mv (List.mem_cons_of_mem _ h)) k
        (by simpa using hk)

theorem solveT_some_spec (cells : List Cell) (moves : List PMove)
    (hGood : ∀ m ∈ moves, GoodMove m) (clock : Nat → Bool) (hl : Bool)
    (board : List (List Bool)) (p : List PMove)
    (hpos : 1 ≤ popcount (boardToBits board cells))
    (hres : solveT cells moves clock hl board = some p) :
    p.length = popcount (boardToBits board cells) - 1 ∧
    LegalSeq (boardToBits board cells) p ∧
    popcount (applyPath (boardToBits board cells) p) = 1 ∧
    (∀ k, k < p.length →
      popcount (applyPath (boardToBits board cells) (p.take (k + 1))) =
        popcount (applyPath (boardToBits board cells) (p.take k)) - 1) := by
  rw [solveT, solveTFull] at hres
  split at hres
  · rename_i hle
    have h1 : popcount (boardToBits board cells) = 1 := le_antisymm hle hpos
    injection hres with hres1
    subst hres1
    exact ⟨by simp [h1], trivial, h1, by intro k hk; simp at hk⟩
  · rename_i hgt
    rcases hdfs : dfs moves clock hl (popcount (boardToBits board cells))
        (boardToBits board cells) ⟨[], 0, false⟩ with ⟨res, ctxF⟩
    rw [hdfs] at hres
    have hres2 : res = some p := hres
    subst hres2
    obtain ⟨hlen, hseq, hfin, hmems⟩ := dfs_some_spec moves hGood clock hl
      (popcount (boardToBits board cells)) (boardToBits board cells)
      ⟨[], 0, false⟩ p ctxF rfl hdfs
    exact ⟨hlen, hseq, hfin,
      legalSeq_popcount_step p (boardToBits board cells) hseq
        (fun mv h => hGood mv (hmems mv h))⟩

/-- C1, amended: for every registered-shape solve on a board with at least
one stone, a returned move list has length `initial popcount - 1`, each
move is legal where applied, each step drops the popcount by exactly one,
and the final state has exactly one stone. -/
theorem solve_path_correct (shape : Shape) (hnd : shape.validCells.Nodup)
    (clock : Nat → Bool) (hl : Bool) (board : List (List Bool)) (p : List PMove)
    (hpos : 1 ≤ popcount (boardToBits board shape.validCells))
    (hres : solveShape shape clock hl board = some p) :
    p.length = popcount (boardToBits board shape.validCells) - 1 ∧
    LegalSeq (boardToBits board shape.validCells) p ∧
    popcount (applyPath (boardToBits board shape.validCells) p) = 1 ∧
    (∀ k, k < p.length →
      popcount (applyPath (boardToBits board shape.validCells) (p.take (k + 1))) =
        popcount (applyPath (boardToBits board shape.validCells) (p.take k)) - 1) :=
  solveT_some_spec shape.validCells (buildMoves shape.validCells)
    (buildMoves_good shape.validCells hnd) clock hl board p hpos hres

theorem solve_path_correct_counterexample :
    solveShape wieglebShape clockFalse true (mkBoard 9 9 []) = some [] ∧
    popcount (boardToBits (mkBoard 9 9 []) wieglebShape.validCells) = 0 ∧
    popcount (applyPath (boardToBits (mkBoard 9 9 []) wieglebShape.validCells)
      []) ≠ 1 := by
  refine ⟨by decide, by decide, by decide⟩

theorem solve_path_correct_witness :
    ([(⟨1 <<< 20, 1 <<< 22, 1 <<< 21, 4, 2, 4, 4, 4, 3⟩ : PMove)].length =
      popcount (boardToBits (mkBoard 9 9 [(4, 2), (4, 3)])
        wieglebShape.validCells) - 1) ∧
    LegalSeq (boardToBits (mkBoard 9 9 [(4, 2), (4, 3)]) wieglebShape.validCells)
      [⟨1 <<< 20, 1 <<< 22, 1 <<< 21, 4, 2, 4, 4, 4, 3⟩] ∧
    popcount (applyPath
      (boardToBits (mkBoard 9 9 [(4, 2), (4, 3)]) wieglebShape.validCells)
      [⟨1 <<< 20, 1 <<< 22, 1 <<< 21, 4, 2, 4, 4, 4, 3⟩]) = 1 ∧
    (∀ k, k < [(⟨1 <<< 20, 1 <<< 22, 1 <<< 21, 4, 2, 4, 4, 4, 3⟩ : PMove)].length →
      popcount (applyPath
        (boardToBits (mkBoard 9 9 [(4, 2), (4, 3)]) wieglebShape.validCells)
        ([(⟨1 <<< 20, 1 <<< 22, 1 <<< 21, 4, 2, 4, 4, 4, 3⟩ : PMove)].take (k + 1))) =
      popcount (applyPath
        (boardToBits (mkBoard 9 9 [(4, 2), (4, 3)]) wieglebShape.validCells)
        ([(⟨1 <<< 20, 1 <<< 22, 1 <<< 21, 4, 2, 4, 4, 4, 3⟩ : PMove)].take k)) - 1) :=
  solve_path_correct wieglebShape (by decide) clockFalse true
    (mkBoard 9 9 [(4, 2), (4, 3)])
    [⟨1 <<< 20, 1 <<< 22, 1 <<< 21, 4, 2, 4, 4, 4, 3⟩] (by decide) (by decide)

/-! ### Timeout behaviour of the search -/

theorem dfs_unwind (moves : List PMove) (clock : Nat → Bool) (rem state f c) :
    dfs moves clock true (rem + 2) state ⟨f, c, true⟩ = (none, ⟨f, c + 1, true⟩) := by
  rw [dfs]
  simp

theorem dfsLoop_some_flag (next : Nat → Ctx → Option (List PMove) × Ctx)
    (hnext : ∀ s c p c1, c.timedOut = false → next s c = (some p, c1) →
      c1.timedOut = false) :
    ∀ (pending : List PMove) (state : Nat) (ctx : Ctx) (p : List PMove) (ctx1 : Ctx),
      ctx.timedOut = false → dfsLoop next pending state ctx = (some p, ctx1) →
      ctx1.timedOut = false := by
  intro pending
  induction pending with
  | nil =>
    intro state ctx p ctx1 hflag h
    simp [dfsLoop] at h
  | cons m rest ih =>
    intro state ctx p ctx1 hflag h
    rw [dfsLoop] at h
    split at h
    · split at h
      · rename_i hleg x path ctxA heq
        injection h with h1 h2
        subst h2
        exact hnext _ _ _ _ hflag heq
      · rename_i hleg x ctxA heq
        split at h
        · simp at h
        · rename_i hto
          exact ih state ctxA p ctx1 (Bool.not_eq_true _ |>.mp hto) h
    · exact ih state ctx p ctx1 hflag h

theorem dfs_some_flag (moves : List PMove) (clock : Nat → Bool) (hl : Bool) :
    ∀ rem state ctx p ctx1, ctx.timedOut = false →
      dfs moves clock hl rem state ctx = (some p, ctx1) → ctx1.timedOut = false := by
  intro rem
  induction rem using Nat.strong_induction_on with
  | _ rem ih =>
    intro state ctx p ctx1 hflag h
    match rem, h with
    | 0, h => simp [dfs] at h
    | 1, h =>
      rw [dfs] at h
      injection h with h1 h2
      subst h2
      exact hflag
    | (k+2), h =>
      rw [dfs] at h
      dsimp only at h
      split at h
      · split at h
        · simp at h
        · split at h
          · simp at h
          · split at h
            · rename_i hmemo x path ctxL heq
              injection h with h1 h2
              subst h2
              exact dfsLoop_some_flag _
                (fun s c p1 c1 hc hcall => ih (k+1) (by omega) s c p1 c1 hc hcall)
                moves state _ path ctxL (by exact hflag) heq
            · split at h
              · simp at h
              · simp at h
      · split at h
        · simp at h
        · split at h
          · rename_i x path ctxL heq
            injection h with h1 h2
            subst h2
            exact dfsLoop_some_flag _
              (fun s c p1 c1 hc hcall => ih (k+1) (by omega) s c p1 c1 hc hcall)
              moves state ctx path ctxL hflag heq
          · split at h
            · simp at h
            · simp at h

/-- C3, amended: once the deadline passes the search unwinds immediately
(a deadline-expired frame returns at once, leaving the memo untouched and
the flag set), and a search that times out never returns a move list; but
the value `solve` returns on timeout is `none`, the same value returned
when the state space is exhausted, so the caller cannot tell the two
apart from the result. -/
theorem solve_timeout_result :
    (∀ (moves : List PMove) (clock : Nat → Bool) (rem state : Nat) (f : List Nat) (c : Nat),
      dfs moves clock true (rem + 2) state ⟨f, c, true⟩ =
        (none, ⟨f, c + 1, true⟩)) ∧
    (∀ (moves : List PMove) (clock : Nat → Bool) (hl : Bool) (rem state : Nat)
      (ctx : Ctx) (p : List PMove) (ctx1 : Ctx), ctx.timedOut = false →
      dfs moves clock hl rem state ctx = (some p, ctx1) → ctx1.timedOut = false) ∧
    (dfs (buildMoves englishShape.validCells) clockTrue true 2
        (boardToBits (mkBoard 7 7 [(0, 2), (6, 4)]) englishShape.validCells)
        ⟨[], 4095, false⟩).1 =
      solveT englishShape.validCells (buildMoves englishShape.validCells)
        clockFalse true (mkBoard 7 7 [(0, 2), (6, 4)]) := by
  refine ⟨?_, ?_, by decide⟩
  · intro moves clock rem state f c
    exact dfs_unwind moves clock rem state f c
  · intro moves clock hl rem state ctx p ctx1 hflag h
    exact dfs_some_flag moves clock hl rem state ctx p ctx1 hflag h

theorem solve_timeout_result_counterexample :
    (dfs (buildMoves englishShape.validCells) clockTrue true 2
        (boardToBits (mkBoard 7 7 [(0, 2), (6, 4)]) englishShape.validCells)
        ⟨[], 4095, false⟩).2.timedOut = true ∧
    (dfs (buildMoves englishShape.validCells) clockTrue true 2
        (boardToBits (mkBoard 7 7 [(0, 2), (6, 4)]) englishShape.validCells)
        ⟨[], 4095, false⟩).1 = none ∧
    (solveTFull englishShape.validCells (buildMoves englishShape.validCells)
        clockFalse true (mkBoard 7 7 [(0, 2), (6, 4)])).2.timedOut = false ∧
    (solveTFull englishShape.validCells (buildMoves englishShape.validCells)
        clockFalse true (mkBoard 7 7 [(0, 2), (6, 4)])).1 = none := by
  refine ⟨by decide, by decide, by decide, by decide⟩

theorem solve_timeout_result_witness :
    dfs (buildMoves englishShape.validCells) clockFalse true 2
        (boardToBits (mkBoard 7 7 [(3, 1), (3, 2)]) englishShape.validCells)
        ⟨[], 0, false⟩ =
      (some [⟨1 <<< 14, 1 <<< 16, 1 <<< 15, 3, 1, 3, 3, 3, 2⟩],
        ⟨[], 1, false⟩) ∧
    (⟨[], 1, false⟩ : Ctx).timedOut = false :=
  ⟨by decide,
    solve_timeout_result.2.1 (buildMoves englishShape.validCells) clockFalse true 2
      (boardToBits (mkBoard 7 7 [(3, 1), (3, 2)]) englishShape.validCells)
      ⟨[], 0, false⟩ [⟨1 <<< 14, 1 <<< 16, 1 <<< 15, 3, 1, 3, 3, 3, 2⟩]
      ⟨[], 1, false⟩ rfl (by decide)⟩

/-! ### Move-table totality and encoding congruence -/

/-- C9: for every registered shape, whenever a jump's landing cell is a
valid cell, the jumped midpoint is a valid cell too, so the builder's
`cell_index[(jump_r, jump_c)]` lookup never fails. -/
theorem move_table_midpoint_valid :
    ∀ shape ∈ boardShapes, ∀ p ∈ shape.validCells, ∀ d ∈ directions,
      ((p.1 + d.1, p.2 + d.2) : Cell) ∈ shape.validCells →
      ((p.1 + d.1 / 2, p.2 + d.2 / 2) : Cell) ∈ shape.validCells := by
  decide

theorem move_table_midpoint_valid_witness :
    englishShape ∈ boardShapes ∧ ((3, 1) : Cell) ∈ englishShape.validCells ∧
    ((0, 2) : Int × Int) ∈ directions ∧
    (((3 : Int) + 0, (1 : Int) + 2) : Cell) ∈ englishShape.validCells ∧
    (((3 : Int) + 0 / 2, (1 : Int) + 2 / 2) : Cell) ∈ englishShape.validCells :=
  ⟨by decide, by decide, by decide, by decide,
    move_table_midpoint_valid englishShape (by decide) (3, 1) (by decide)
      (0, 2) (by decide) (by decide)⟩

theorem bitsGo_congr (b1 b2 : List (List Bool)) :
    ∀ (cells : List Cell) (i acc : Nat),
      (∀ p ∈ cells, boardGet b1 p.1.toNat p.2.toNat = boardGet b2 p.1.toNat p.2.toNat) →
      bitsGo b1 cells i acc = bitsGo b2 cells i acc := by
  intro cells
  induction cells with
  | nil => intro i acc _; rfl
  | cons p rest ih =>
    intro i acc hagree
    rw [bitsGo, bitsGo, hagree p (List.mem_cons_self p rest)]
    exact ih (i + 1) _ (fun q hq => hagree q (List.mem_cons_of_mem p hq))

/-- C10: the encoded bitmask depends only on occupancy at the shape's valid
cells; boards agreeing there encode identically. -/
theorem encode_only_valid_cells :
    ∀ shape ∈ boardShapes, ∀ b1 b2 : List (List Bool),
      (∀ p ∈ shape.validCells,
        boardGet b1 p.1.toNat p.2.toNat = boardGet b2 p.1.toNat p.2.toNat) →
      boardToBits b1 shape.validCells = boardToBits b2 shape.validCells :=
  fun shape _ b1 b2 hagree => bitsGo_congr b1 b2 shape.validCells 0 0 hagree

theorem encode_only_valid_cells_witness :
    wieglebShape ∈ boardShapes ∧
    (∀ p ∈ wieglebShape.validCells,
      boardGet (mkBoard 9 9 [(4, 4)]) p.1.toNat p.2.toNat =
        boardGet (mkBoard 9 9 [(4, 4), (0, 0)]) p.1.toNat p.2.toNat) ∧
    boardToBits (mkBoard 9 9 [(4, 4)]) wieglebShape.validCells =
      boardToBits (mkBoard 9 9 [(4, 4), (0, 0)]) wieglebShape.validCells :=
  ⟨by decide, by decide,
    encode_only_valid_cells wieglebShape (by decide) (mkBoard 9 9 [(4, 4)])
      (mkBoard 9 9 [(4, 4), (0, 0)]) (by decide)⟩

/-! ### Codec lemmas: encode side -/

theorem bitsGo_acc (b : List (List Bool)) :
    ∀ (cells : List Cell) (i acc : Nat),
      bitsGo b cells i acc = acc ||| bitsGo b cells i 0 := by
  intro cells
  induction cells with
  | nil => intro i acc; simp [bitsGo]
  | cons p rest ih =>
    intro i acc
    rw [bitsGo, bitsGo]
    by_cases hb : boardGet b p.1.toNat p.2.toNat
    · rw [if_pos hb, if_pos hb, ih (i + 1) (acc ||| 1 <<< i), ih (i + 1) (0 ||| 1 <<< i)]
      rw [Nat.zero_or, Nat.or_assoc]
    · rw [if_neg hb, if_neg hb, ih (i + 1) acc]

theorem testBit_bitsGo_lt (b : List (List Bool)) :
    ∀ (cells : List Cell) (i j : Nat), j < i →
      (bitsGo b cells i 0).testBit j = false := by
  intro cells
  induction cells with
  | nil => intro i j _; simp [bitsGo]
  | cons p rest ih =>
    intro i j hj
    rw [bitsGo, bitsGo_acc]
    rw [Nat.testBit_or]
    have h2 : (bitsGo b rest (i + 1) 0).testBit j = false := ih (i + 1) j (by omega)
    have h1 : ((if boardGet b p.1.toNat p.2.toNat then 0 ||| 1 <<< i else 0)).testBit j
        = false := by
      split
      · rw [Nat.zero_or, Nat.one_shiftLeft]
        exact Nat.testBit_two_pow_of_ne (by omega)
      · exact Nat.zero_testBit j
    rw [h1, h2]
    rfl

theorem testBit_bitsGo_ge (b : List (List Bool)) :
    ∀ (cells : List Cell) (i j : Nat), i + cells.length ≤ j →
      (bitsGo b cells i 0).testBit j = false := by
  intro cells
  induction cells with
  | nil => intro i j _; simp [bitsGo]
  | cons p rest ih =>
    intro i j hj
    rw [bitsGo, bitsGo_acc]
    rw [Nat.testBit_or]
    rw [List.length_cons] at hj
    have h2 : (bitsGo b rest (i + 1) 0).testBit j = false := ih (i + 1) j (by omega)
    have h1 : ((if boardGet b p.1.toNat p.2.toNat then 0 ||| 1 <<< i else 0)).testBit j
        = false := by
      split
      · rw [Nat.zero_or, Nat.one_shiftLeft]
        exact Nat.testBit_two_pow_of_ne (by omega)
      · exact Nat.zero_testBit j
    rw [h1, h2]
    rfl

theorem testBit_bitsGo_at (b : List (List Bool)) :
    ∀ (cells : List Cell) (i k : Nat) (hk : k < cells.length),
      (bitsGo b cells i 0).testBit (i + k) =
        boardGet b (cells.get ⟨k, hk⟩).1.toNat (cells.get ⟨k, hk⟩).2.toNat := by
  intro cells
  induction cells with
  | nil => intro i k hk; simp at hk
  | cons p rest ih =>
    intro i k hk
    rw [bitsGo, bitsGo_acc, Nat.testBit_or]
    cases k with
    | zero =>
      have h2 : (bitsGo b rest (i + 1) 0).testBit (i + 0) = false :=
        testBit_bitsGo_lt b rest (i + 1) (i + 0) (by omega)
      rw [h2, Bool.or_false]
      show ((if boardGet b p.1.toNat p.2.toNat then 0 ||| 1 <<< i else 0)).testBit (i + 0)
        = boardGet b p.1.toNat p.2.toNat
      split
      · rename_i hb
        rw [Nat.zero_or, Nat.one_shiftLeft, Nat.add_zero, Nat.testBit_two_pow_self, hb]
      · rename_i hb
        rw [Nat.zero_testBit]
        exact (Bool.not_eq_true _ |>.mp hb).symm
    | succ k =>
      have hk1 : k < rest.length := by
        rw [List.length_cons] at hk
        omega
      have h1 : ((if boardGet b p.1.toNat p.2.toNat then 0 ||| 1 <<< i else 0)).testBit
          (i + (k + 1)) = false := by
        split
        · rw [Nat.zero_or, Nat.one_shiftLeft]
          exact Nat.testBit_two_pow_of_ne (by omega)
        · exact Nat.zero_testBit _
      rw [h1, Bool.false_or]
      have := ih (i + 1) k hk1
      rw [show i + (k + 1) = (i + 1) + k by omega, this]
      rfl

theorem boardToBits_lt (b : List (List Bool)) (cells : List Cell) :
    boardToBits b cells < 2 ^ cells.length :=
  Nat.lt_pow_two_of_testBit _ fun j hj =>
    testBit_bitsGo_ge b cells 0 j (by omega)

theorem testBit_boardToBits (b : List (List Bool)) (cells : List Cell)
    (k : Nat) (hk : k < cells.length) :
    (boardToBits b cells).testBit k =
      boardGet b (cells.get ⟨k, hk⟩).1.toNat (cells.get ⟨k, hk⟩).2.toNat := by
  have := testBit_bitsGo_at b cells 0 k hk
  rw [Nat.zero_add] at this
  exact this

/-! ### Codec lemmas: decode side -/

/-- Whether some enumerated cell equal to `q` has its bit set. -/
def anyGo (bits : Nat) : List Cell → Nat → Cell → Bool
  | [], _, _ => false
  | p :: rest, i, q =>
      (decide (p = q) && (bits &&& (1 <<< i) != 0)) || anyGo bits rest (i + 1) q

/-- Well-dimensioned rows-by-cols grid. -/
def GridDims (b : List (List Bool)) (rows cols : Nat) : Prop :=
  b.length = rows ∧ ∀ r, r < rows → (b.getD r []).length = cols

theorem gridDims_replicate (rows cols : Nat) :
    GridDims (List.replicate rows (List.replicate cols false)) rows cols := by
  constructor
  · exact List.length_replicate rows _
  · intro r hr
    rw [List.getD_eq_getElem?_getD, List.getElem?_replicate_of_lt hr]
    simp

theorem gridDims_setCell (b : List (List Bool)) (rows cols r c : Nat)
    (hd : GridDims b rows cols) : GridDims (setCell b r c) rows cols := by
  obtain ⟨hlen, hrow⟩ := hd
  constructor
  · rw [setCell, List.length_set]
    exact hlen
  · intro r1 hr1
    rw [setCell, List.getD_eq_getElem?_getD]
    by_cases hrr : r = r1
    · subst hrr
      by_cases hlt : r < b.length
      · rw [List.getElem?_set_self hlt]
        simp only [Option.getD_some, List.length_set]
        exact hrow r hr1
      · rw [List.getElem?_set_self' ]
        rw [List.getElem?_eq_none (by omega)]
        simp only [Option.map_none, Option.getD_none]
        exact absurd (hlen ▸ hr1) hlt
    · rw [List.getElem?_set_ne hrr]
      rw [← List.getD_eq_getElem?_getD]
      exact hrow r1 hr1

theorem boardGet_setCell_same (b : List (List Bool)) (rows cols r c : Nat)
    (hd : GridDims b rows cols) (hr : r < rows) (hc : c < cols) :
    boardGet (setCell b r c) r c = true := by
  obtain ⟨hlen, hrow⟩ := hd
  have hb : r < b.length := by omega
  have hcl : c < (b.getD r []).length := by
    rw [hrow r hr]
    omega
  simp only [boardGet, setCell, List.getD_eq_getElem?_getD] at hcl ⊢
  rw [List.getElem?_set_self hb]
  simp only [Option.getD_some]
  rw [List.getElem?_set_self hcl]
  simp

theorem boardGet_setCell_other (b : List (List Bool)) (r c r1 c1 : Nat)
    (hne : r ≠ r1 ∨ c ≠ c1) :
    boardGet (setCell b r c) r1 c1 = boardGet b r1 c1 := by
  by_cases hrr : r = r1
  · subst hrr
    have hne2 : c ≠ c1 := hne.resolve_left (fun h => h rfl)
    simp only [boardGet, setCell, List.getD_eq_getElem?_getD]
    by_cases hlt : r < b.length
    · rw [List.getElem?_set_self hlt]
      simp only [Option.getD_some]
      rw [List.getElem?_set_ne hne2]
    · rw [List.set_eq_of_length_le (by omega)]
  · simp only [boardGet, setCell, List.getD_eq_getElem?_getD]
    rw [List.getElem?_set_ne hrr]

/-- The shape's valid cells are nonnegative and within the grid. -/
def CellsWF (rows cols : Nat) (cells : List Cell) : Prop :=
  ∀ p ∈ cells, 0 ≤ p.1 ∧ p.1 < rows ∧ 0 ≤ p.2 ∧ p.2 < cols

theorem gridDims_decodeGo (bits rows cols : Nat) :
    ∀ (cells : List Cell) (i : Nat) (b : List (List Bool)),
      GridDims b rows cols → GridDims (decodeGo bits cells i b) rows cols := by
  intro cells
  induction cells with
  | nil => intro i b hd; exact hd
  | cons p rest ih =>
    intro i b hd
    rw [decodeGo]
    refine ih (i + 1) _ ?_
    split
    · exact gridDims_setCell b rows cols _ _ hd
    · exact hd

theorem boardGet_decodeGo (bits : Nat) (rows cols : Nat) :
    ∀ (cells : List Cell) (i : Nat) (b : List (List Bool)),
      GridDims b rows cols → CellsWF rows cols cells →
      ∀ (q : Cell), 0 ≤ q.1 → 0 ≤ q.2 →
        boardGet (decodeGo bits cells i b) q.1.toNat q.2.toNat =
          (boardGet b q.1.toNat q.2.toNat || anyGo bits cells i q) := by
  intro cells
  induction cells with
  | nil =>
    intro i b _ _ q _ _
    simp [decodeGo, anyGo]
  | cons p rest ih =>
    intro i b hd hwf q hq1 hq2
    obtain ⟨hp1, hp2, hp3, hp4⟩ := hwf p (List.mem_cons_self p rest)
    have hwfr : CellsWF rows cols rest := fun x hx => hwf x (List.mem_cons_of_mem p hx)
    rw [decodeGo, anyGo]
    by_cases hbit : bits &&& (1 <<< i) ≠ 0
    · rw [if_pos hbit]
      have hd1 : GridDims (setCell b p.1.toNat p.2.toNat) rows cols :=
        gridDims_setCell b rows cols _ _ hd
      rw [ih (i + 1) _ hd1 hwfr q hq1 hq2]
      by_cases hpq : p = q
      · subst hpq
        rw [boardGet_setCell_same b rows cols _ _ hd (by omega) (by omega)]
        have hbit2 : (bits &&& (1 <<< i) != 0) = true := by
          simpa using hbit
        simp [hbit2]
      · have hcoord : p.1.toNat ≠ q.1.toNat ∨ p.2.toNat ≠ q.2.toNat := by
          rcases p with ⟨c1, c2⟩
          rcases q with ⟨d1, d2⟩
          simp only [Prod.mk.injEq] at hpq
          simp only at hp1 hp3 hq1 hq2 ⊢
          rcases Decidable.not_and_iff_or_not.mp hpq with h | h
          · left
            omega
          · right
            omega
        rw [boardGet_setCell_other b _ _ _ _ hcoord]
        have hpq2 : decide (p = q) = false := by simp [hpq]
        simp [hpq2, Bool.or_assoc]
    · rw [if_neg hbit]
      rw [ih (i + 1) _ hd hwfr q hq1 hq2]
      have hbit2 : (bits &&& (1 <<< i) != 0) = false := by
        simpa using hbit
      simp [hbit2]

theorem anyGo_not_mem (bits : Nat) :
    ∀ (cells : List Cell) (i : Nat) (q : Cell), q ∉ cells →
      anyGo bits cells i q = false := by
  intro cells
  induction cells with
  | nil => intro i q _; rfl
  | cons p rest ih =>
    intro i q hq
    rw [anyGo]
    have hpq : decide (p = q) = false := by
      simp only [decide_eq_false_iff_not]
      intro h
      exact hq (h ▸ List.mem_cons_self p rest)
    rw [hpq, ih (i + 1) q (fun h => hq (List.mem_cons_of_mem p h))]
    rfl

theorem anyGo_at (bits : Nat) :
    ∀ (cells : List Cell), cells.Nodup → ∀ (i k : Nat) (hk : k < cells.length),
      anyGo bits cells i (cells.get ⟨k, hk⟩) = (bits &&& (1 <<< (i + k)) != 0) := by
  intro cells
  induction cells with
  | nil => intro _ i k hk; simp at hk
  | cons p rest ih =>
    intro hnd i k hk
    obtain ⟨hnotin, hnd2⟩ := List.nodup_cons.mp hnd
    cases k with
    | zero =>
      rw [anyGo]
      show ((decide (p = p) && (bits &&& (1 <<< i) != 0)) || anyGo bits rest (i + 1) p) =
        (bits &&& (1 <<< (i + 0)) != 0)
      rw [anyGo_not_mem bits rest (i + 1) p hnotin]
      simp
    | succ k =>
      have hk1 : k < rest.length := by
        rw [List.length_cons] at hk
        omega
      rw [anyGo]
      show ((decide (p = rest.get ⟨k, hk1⟩) && (bits &&& (1 <<< i) != 0)) ||
        anyGo bits rest (i + 1) (rest.get ⟨k, hk1⟩)) = (bits &&& (1 <<< (i + (k + 1))) != 0)
      have hpne : decide (p = rest.get ⟨k, hk1⟩) = false := by
        simp only [decide_eq_false_iff_not]
        intro h
        exact hnotin (h ▸ List.get_mem rest k hk1)
      rw [hpne, ih hnd2 (i + 1) k hk1]
      simp only [Bool.false_and, Bool.false_or]
      rw [show (i + 1) + k = i + (k + 1) from by omega]

theorem grid_ext (x y : List (List Bool)) (hlen : x.length = y.length)
    (hrows : ∀ r, r < x.length → (x.getD r []).length = (y.getD r []).length)
    (hget : ∀ r c, boardGet x r c = boardGet y r c) : x = y := by
  apply List.ext_getElem hlen
  intro r hr1 hr2
  apply List.ext_getElem
  · have := hrows r hr1
    simp only [List.getD_eq_getElem?_getD, List.getElem?_eq_getElem hr1,
      List.getElem?_eq_getElem hr2, Option.getD_some] at this
    exact this
  · intro c hc1 hc2
    have := hget r c
    simp only [boardGet, List.getD_eq_getElem?_getD, List.getElem?_eq_getElem hr1,
      List.getElem?_eq_getElem hr2, Option.getD_some] at this
    simp only [List.getElem?_eq_getElem hc1, List.getElem?_eq_getElem hc2,
      Option.getD_some] at this
    exact this

theorem and_one_shiftLeft_bne (s i : Nat) :
    (s &&& (1 <<< i) != 0) = s.testBit i := by
  by_cases h : s.testBit i = true
  · rw [h]
    have := (and_one_shiftLeft_ne_zero_iff s i).mpr h
    simpa using this
  · have h2 : s.testBit i = false := Bool.not_eq_true _ |>.mp h
    rw [h2]
    have : ¬s &&& (1 <<< i) ≠ 0 := fun hne => h ((and_one_shiftLeft_ne_zero_iff s i).mp hne)
    simpa using Decidable.not_not.mp this

/-- Round trip one: encoding the decoded board of any in-range bitmask
gives the bitmask back. -/
theorem encode_decode_eq (shape : Shape) (hnd : shape.validCells.Nodup)
    (hwf : CellsWF shape.rows shape.cols shape.validCells)
    (s : Nat) (hs : s < 2 ^ shape.validCells.length) :
    boardToBits (bitsToBoard s shape) shape.validCells = s := by
  refine Nat.eq_of_testBit_eq fun j => ?_
  by_cases hj : j < shape.validCells.length
  · rw [testBit_boardToBits _ _ j hj]
    set q := shape.validCells.get ⟨j, hj⟩ with hq
    have hqmem : q ∈ shape.validCells := List.get_mem _ j hj
    obtain ⟨h1, h2, h3, h4⟩ := hwf q hqmem
    rw [bitsToBoard]
    rw [boardGet_decodeGo s shape.rows shape.cols shape.validCells 0 _
      (gridDims_replicate _ _) hwf q h1 h3]
    have hbase : boardGet (List.replicate shape.rows (List.replicate shape.cols false))
        q.1.toNat q.2.toNat = false := by
      simp only [boardGet, List.getD_eq_getElem?_getD, List.getElem?_replicate]
      split
      · simp only [Option.getD_some, List.getElem?_replicate]
        split <;> simp
      · simp
    rw [hbase, Bool.false_or, anyGo_at s shape.validCells hnd 0 j hj]
    rw [Nat.zero_add, and_one_shiftLeft_bne]
  · rw [boardToBits]
    rw [testBit_bitsGo_ge (bitsToBoard s shape) shape.validCells 0 j (by omega)]
    exact (Nat.testBit_lt_two_pow (Nat.lt_of_lt_of_le hs
      (Nat.pow_le_pow_right (by decide) (by omega)))).symm

theorem boardGet_outside (g : List (List Bool)) (rows cols r c : Nat)
    (hd : GridDims g rows cols) (h : rows ≤ r ∨ cols ≤ c) :
    boardGet g r c = false := by
  obtain ⟨hlen, hrow⟩ := hd
  by_cases hr : r < rows
  · rcases h with h | h
    · omega
    · have hl := hrow r hr
      simp only [boardGet, List.getD_eq_getElem?_getD] at hl ⊢
      rw [List.getElem?_eq_none (by omega : (g[r]?.getD []).length ≤ c)]
      simp
  · simp only [boardGet, List.getD_eq_getElem?_getD]
    rw [List.getElem?_eq_none (by omega : g.length ≤ r)]
    simp

/-- Round trip two: decoding the encoding of a well-dimensioned board that
is unoccupied outside the shape's valid cells gives the board back. -/
theorem decode_encode_eq (shape : Shape) (hnd : shape.validCells.Nodup)
    (hwf : CellsWF shape.rows shape.cols shape.validCells)
    (b : List (List Bool)) (hdims : GridDims b shape.rows shape.cols)
    (hrestrict : ∀ r, r < shape.rows → ∀ c, c < shape.cols →
      ((Int.ofNat r, Int.ofNat c) : Cell) ∉ shape.validCells →
      boardGet b r c = false) :
    bitsToBoard (boardToBits b shape.validCells) shape = b := by
  have hddec : GridDims (bitsToBoard (boardToBits b shape.validCells) shape)
      shape.rows shape.cols := by
    rw [bitsToBoard]
    exact gridDims_decodeGo _ _ _ shape.validCells 0 _ (gridDims_replicate _ _)
  apply grid_ext
  · rw [hddec.1, hdims.1]
  · intro r hr
    rw [hddec.1] at hr
    rw [hddec.2 r hr, hdims.2 r hr]
  · intro r c
    by_cases hin : r < shape.rows ∧ c < shape.cols
    · obtain ⟨hr, hc⟩ := hin
      set q : Cell := (Int.ofNat r, Int.ofNat c) with hq
      have hq1 : q.1.toNat = r := rfl
      have hq2 : q.2.toNat = c := rfl
      have := boardGet_decodeGo (boardToBits b shape.validCells) shape.rows shape.cols
        shape.validCells 0 _ (gridDims_replicate _ _) hwf q (by simp [hq]) (by simp [hq])
      rw [hq1, hq2] at this
      rw [bitsToBoard, this]
      have hbase : boardGet (List.replicate shape.rows (List.replicate shape.cols false))
          r c = false := by
        simp only [boardGet, List.getD_eq_getElem?_getD, List.getElem?_replicate]
        split
        · simp only [Option.getD_some, List.getElem?_replicate]
          split <;> simp
        · simp
      rw [hbase, Bool.false_or]
      by_cases hmem : q ∈ shape.validCells
      · obtain ⟨⟨j, hj⟩, hjq⟩ := List.mem_iff_get.mp hmem
        rw [← hjq, anyGo_at _ shape.validCells hnd 0 j hj, Nat.zero_add,
          and_one_shiftLeft_bne, testBit_boardToBits b shape.validCells j hj, hjq]
        rw [hq1, hq2]
      · rw [anyGo_not_mem _ shape.validCells 0 q hmem]
        exact (hrestrict r hr c hc hmem).symm
    · have hout : shape.rows ≤ r ∨ shape.cols ≤ c := by omega
      rw [boardGet_outside _ shape.rows shape.cols r c hddec hout,
        boardGet_outside _ shape.rows shape.cols r c hdims hout]

instance decCellsWF (rows cols : Nat) (cells : List Cell) :
    Decidable (CellsWF rows cols cells) := by
  unfold CellsWF
  infer_instance

/-- C2: for every registered shape the codec is a bijection between
in-range bitmasks and well-dimensioned boards restricted to the shape's
valid cells: `encode (decode s) = s` and `decode (encode b) = b`. -/
theorem codec_round_trip :
    ∀ shape ∈ boardShapes,
      (∀ s : Nat, s < 2 ^ shape.validCells.length →
        boardToBits (bitsToBoard s shape) shape.validCells = s) ∧
      (∀ b : List (List Bool), GridDims b shape.rows shape.cols →
        (∀ r, r < shape.rows → ∀ c, c < shape.cols →
          ((Int.ofNat r, Int.ofNat c) : Cell) ∉ shape.validCells →
          boardGet b r c = false) →
        bitsToBoard (boardToBits b shape.validCells) shape = b) := by
  intro shape hshape
  have hnd : shape.validCells.Nodup := by
    fin_cases hshape <;> decide
  have hwf : CellsWF shape.rows shape.cols shape.validCells := by
    fin_cases hshape <;> decide
  exact ⟨fun s hs => encode_decode_eq shape hnd hwf s hs,
    fun b hdims hres => decode_encode_eq shape hnd hwf b hdims hres⟩

theorem codec_round_trip_witness :
    boardToBits (bitsToBoard 5 englishShape) englishShape.validCells = 5 ∧
    bitsToBoard (boardToBits (mkBoard 7 7 [(3, 3)]) englishShape.validCells)
      englishShape = mkBoard 7 7 [(3, 3)] :=
  ⟨(codec_round_trip englishShape (by decide)).1 5 (by decide),
    (codec_round_trip englishShape (by decide)).2 (mkBoard 7 7 [(3, 3)])
      ⟨by decide, by decide⟩ (by decide)⟩

/-! ### Decimal rendering is injective -/

/-- Reparsing step for one decimal digit character. -/
def decStep (a : Nat) (c : Char) : Nat :=
  a * 10 + (c.toNat - 48)

theorem digitChar_decStep : ∀ d, d < 10 → (Nat.digitChar d).toNat - 48 = d := by
  decide

theorem toDigitsCore_foldl :
    ∀ (fuel n : Nat) (ds : List Char), n < fuel →
      (Nat.toDigitsCore 10 fuel n ds).foldl decStep 0 = ds.foldl decStep n := by
  intro fuel
  induction fuel with
  | zero => intro n ds h; omega
  | succ fuel ih =>
    intro n ds h
    rw [Nat.toDigitsCore]
    by_cases hdiv : n / 10 = 0
    · rw [if_pos hdiv]
      have hlt : n < 10 := by omega
      rw [List.foldl_cons]
      have : decStep 0 (Nat.digitChar (n % 10)) = n := by
        rw [decStep, Nat.zero_mul, Nat.zero_add,
          digitChar_decStep (n % 10) (Nat.mod_lt n (by decide) |>.trans_le (by omega))]
        exact Nat.mod_eq_of_lt hlt
      rw [this]
    · rw [if_neg hdiv]
      have hn0 : 0 < n := by
        by_contra hc
        have : n = 0 := by omega
        subst this
        simp at hdiv
      have hrec : n / 10 < fuel := by
        have h1 : n / 10 < n := Nat.div_lt_self hn0 (by decide)
        omega
      rw [ih (n / 10) (Nat.digitChar (n % 10) :: ds) hrec, List.foldl_cons]
      have : decStep (n / 10) (Nat.digitChar (n % 10)) = n := by
        rw [decStep, digitChar_decStep (n % 10) (Nat.mod_lt n (by decide))]
        omega
      rw [this]

theorem toDigits_foldl (n : Nat) : (Nat.toDigits 10 n).foldl decStep 0 = n := by
  rw [Nat.toDigits]
  rw [toDigitsCore_foldl (n + 1) n [] (Nat.lt_succ_self n)]
  rfl

theorem natRepr_inj {a b : Nat} (h : Nat.repr a = Nat.repr b) : a = b := by
  have hdata : (Nat.toDigits 10 a) = (Nat.toDigits 10 b) := congrArg String.data h
  calc a = (Nat.toDigits 10 a).foldl decStep 0 := (toDigits_foldl a).symm
  _ = (Nat.toDigits 10 b).foldl decStep 0 := by rw [hdata]
  _ = b := toDigits_foldl b

theorem natToString_inj {a b : Nat} (h : (toString a : String) = toString b) : a = b :=
  natRepr_inj h

theorem cacheKey_inj (shapeId : String) (diag : Bool) {b1 b2 : Nat}
    (h : cacheKey b1 shapeId diag = cacheKey b2 shapeId diag) : b1 = b2 := by
  rw [cacheKey, cacheKey] at h
  have hcancel : ∀ (p : String) (x y : Nat), p ++ toString x = p ++ toString y → x = y := by
    intro p x y hp
    have hd : p.data ++ (toString x).data = p.data ++ (toString y).data := by
      rw [← String.data_append, ← String.data_append, hp]
    have : (toString x).data = (toString y).data :=
      List.append_inj_right hd rfl
    exact natToString_inj (by
      have hx : toString x = String.mk (toString x).data := rfl
      have hy : toString y = String.mk (toString y).data := rfl
      rw [hx, hy, this])
  split at h
  · split at h
    · exact hcancel "diag:" b1 b2 h
    · exact hcancel _ b1 b2 h
  · split at h
    · exact hcancel "" b1 b2 (by simpa using h)
    · exact hcancel _ b1 b2 h

/-! ### Key-value table lemmas -/

theorem lookup_putKV_self {V : Type} :
    ∀ (t : Table V) (k : String) (v : V), lookupKey (putKV t k v) k = some v := by
  intro t
  induction t with
  | nil => intro k v; simp [putKV, lookupKey]
  | cons kv rest ih =>
    intro k v
    rw [putKV]
    by_cases hk : kv.1 = k
    · rw [if_pos hk, lookupKey, if_pos rfl]
    · rw [if_neg hk, lookupKey, if_neg hk]
      exact ih k v

theorem lookup_putKV_ne {V : Type} :
    ∀ (t : Table V) (k k1 : String) (v : V), k1 ≠ k →
      lookupKey (putKV t k v) k1 = lookupKey t k1 := by
  intro t
  induction t with
  | nil =>
    intro k k1 v hne
    rw [putKV, lookupKey, lookupKey, if_neg (fun h => hne h.symm)]
    rfl
  | cons kv rest ih =>
    intro k k1 v hne
    rw [putKV]
    by_cases hk : kv.1 = k
    · rw [if_pos hk, lookupKey, lookupKey]
      rw [if_neg (fun h => hne h.symm), if_neg (fun h => hne (hk.symm.trans h).symm)]
    · rw [if_neg hk, lookupKey, lookupKey]
      by_cases hk1 : kv.1 = k1
      · rw [if_pos hk1, if_pos hk1]
      · rw [if_neg hk1, if_neg hk1]
        exact ih k k1 v hne

/-! ### Cache path decomposition -/

theorem cachePathGo_preserved (shapeId : String) (diag : Bool) (now : String) :
    ∀ (sol : List CMove) (t : Table CacheItem) (cur : Nat) (rs : Int) (k : String),
      (∀ s ∈ pathStates shapeId cur sol, k ≠ cacheKey s shapeId diag) →
      lookupKey (cachePathGo shapeId diag now t cur rs sol) k = lookupKey t k := by
  intro sol
  induction sol with
  | nil => intro t cur rs k _; rfl
  | cons m rest ih =>
    intro t cur rs k hk
    rw [cachePathGo]
    rw [ih _ _ _ k (fun s hs => hk s (by rw [pathStates]; exact List.mem_cons_of_mem _ hs))]
    exact lookup_putKV_ne t _ k _
      (hk cur (by rw [pathStates]; exact List.mem_cons_self _ _))

theorem cachePathGo_spec (shapeId : String) (diag : Bool) (now : String) :
    ∀ (sol : List CMove) (t : Table CacheItem) (cur : Nat) (rs : Int),
      (pathStates shapeId cur sol).Nodup →
      ∀ i, i < sol.length →
        lookupKey (cachePathGo shapeId diag now t cur rs sol)
            (cacheKey ((pathStates shapeId cur sol).getD i 0) shapeId diag) =
          some ⟨.moves (sol.drop i), rs - (i : Int), now⟩ := by
  intro sol
  induction sol with
  | nil => intro t cur rs _ i hi; simp at hi
  | cons m rest ih =>
    intro t cur rs hnd i hi
    rw [pathStates] at hnd ⊢
    obtain ⟨hnotin, hnd2⟩ := List.nodup_cons.mp hnd
    cases i with
    | zero =>
      rw [cachePathGo]
      simp only [List.getD_cons_zero]
      rw [cachePathGo_preserved shapeId diag now rest _ _ _ _ (by
        intro s hs heq
        have h2 : cur = s := @cacheKey_inj shapeId diag cur s heq
        subst h2
        exact hnotin hs)]
      rw [lookup_putKV_self]
      simp
    | succ i =>
      have hi1 : i < rest.length := by
        rw [List.length_cons] at hi
        omega
      rw [cachePathGo]
      simp only [List.getD_cons_succ]
      rw [ih _ _ _ hnd2 i hi1]
      have : rs - 1 - (i : Int) = rs - ((i : Nat) + 1 : Int) := by omega
      rw [this]
      simp [Int.ofNat_succ]
/-- C5: path decomposition of `cache_solution_path` — provided the successive
states along the path are pairwise distinct, the resulting table holds, for
every i below the move count, an entry keyed by the state reached after the
first i moves whose stored solution is the suffix `solution[i:]` and whose
stone count is `stoneCount - i`. -/
theorem cache_solution_path_correct (table : Table CacheItem) (boardBits : Nat)
    (solution : List CMove) (stoneCount : Int) (shapeId : String)
    (allowDiagonals : Bool) (now : String)
    (hnd : (pathStates shapeId boardBits solution).Nodup) :
    ∀ i, i < solution.length →
      lookupKey
          (cacheSolutionPath table boardBits solution stoneCount shapeId allowDiagonals now)
          (cacheKey ((pathStates shapeId boardBits solution).getD i 0) shapeId allowDiagonals) =
        some ⟨.moves (solution.drop i), stoneCount - (i : Int), now⟩ :=
  fun i hi =>
    cachePathGo_spec shapeId allowDiagonals now solution table boardBits stoneCount hnd i hi

/-- A degenerate move whose from, to and jump cells coincide (the wiegleb
centre) leaves the single-centre-stone state fixed, so a path repeating it
revisits the same state: the later loop iteration overwrites the earlier
entry, and the entry for i = 0 ends up holding the suffix for i = 1. -/
theorem cache_solution_path_correct_counterexample :
    lookupKey
        (cacheSolutionPath [] (1 <<< 22) [⟨4, 4, 4, 4, 4, 4⟩, ⟨4, 4, 4, 4, 4, 4⟩] 5
          "wiegleb" false "t")
        (cacheKey
          ((pathStates "wiegleb" (1 <<< 22)
              [(⟨4, 4, 4, 4, 4, 4⟩ : CMove), ⟨4, 4, 4, 4, 4, 4⟩]).getD 0 0)
          "wiegleb" false) ≠
      some ⟨.moves ([(⟨4, 4, 4, 4, 4, 4⟩ : CMove), ⟨4, 4, 4, 4, 4, 4⟩].drop 0),
        5 - ((0 : Nat) : Int), "t"⟩ := by
  decide

theorem cache_solution_path_correct_witness :
    (pathStates "wiegleb" (1 <<< 20 ||| 1 <<< 21) [⟨4, 2, 4, 4, 4, 3⟩]).Nodup ∧
    lookupKey
        (cacheSolutionPath [] (1 <<< 20 ||| 1 <<< 21) [⟨4, 2, 4, 4, 4, 3⟩] 2
          "wiegleb" false "t")
        (cacheKey
          ((pathStates "wiegleb" (1 <<< 20 ||| 1 <<< 21)
              [(⟨4, 2, 4, 4, 4, 3⟩ : CMove)]).getD 0 0)
          "wiegleb" false) =
      some ⟨.moves ([(⟨4, 2, 4, 4, 4, 3⟩ : CMove)].drop 0), 2 - ((0 : Nat) : Int), "t"⟩ :=
  ⟨by decide,
   cache_solution_path_correct [] (1 <<< 20 ||| 1 <<< 21) [⟨4, 2, 4, 4, 4, 3⟩] 2
     "wiegleb" false "t" (by decide) 0 (by decide)⟩
/-! ### Enqueue idempotence -/

def countKey {V : Type} (t : Table V) (k : String) : Nat :=
  t.countP (fun kv => kv.1 == k)

theorem countKey_putKV_self {V : Type} (t : Table V) (k : String) (v : V) :
    countKey (putKV t k v) k = max (countKey t k) 1 := by
  induction t with
  | nil => simp [countKey, putKV]
  | cons kv rest ih =>
    obtain ⟨k1, v1⟩ := kv
    rw [putKV]
    by_cases h : k1 = k
    · rw [if_pos h]
      subst h
      simp only [countKey, List.countP_cons] at *
      simp
    · rw [if_neg h]
      simp only [countKey, List.countP_cons] at *
      have hb : (k1 == k) = false := beq_eq_false_iff_ne.mpr h
      simp [hb, ih]

theorem countKey_enqueue_le (t : Table QItem) (b : Nat) (n : Int) (s : String)
    (d : Bool) (now : String) :
    countKey (enqueue t b n s d now) (cacheKey b s d) ≤
      max (countKey t (cacheKey b s d)) 1 := by
  rw [enqueue, enqueuePut]
  cases hl : lookupKey t (cacheKey b s d) with
  | none =>
      simp only [hl]
      rw [countKey_putKV_self]
  | some ex =>
      simp only [hl]
      by_cases hs2 : ex.status = "pending" ∨ ex.status = "failed"
      · rw [if_pos hs2]
        rw [countKey_putKV_self]
      · rw [if_neg hs2]
        exact le_max_left _ _
/-- C7: enqueue is a conditional put. When an item already exists with a
status other than `pending`/`failed` the store-level put fails its condition
and `enqueue` swallows the conflict, returning the table unchanged (no error
reaches the caller). When no item exists, or the existing status is
`pending` or `failed`, the key afterwards holds a fresh `pending` item.
Starting from a table with at most one item under the key, enqueueing the
same key twice still leaves at most one item under it. -/
theorem enqueue_idempotent (table : Table QItem) (boardBits : Nat)
    (stoneCount stoneCount2 : Int) (shapeId : String) (allowDiagonals : Bool)
    (now now2 : String)
    (hone : countKey table (cacheKey boardBits shapeId allowDiagonals) ≤ 1) :
    (∀ ex, lookupKey table (cacheKey boardBits shapeId allowDiagonals) = some ex →
      ex.status ≠ "pending" → ex.status ≠ "failed" →
      enqueuePut table boardBits stoneCount shapeId allowDiagonals now =
          .error .conditionalCheckFailed ∧
        enqueue table boardBits stoneCount shapeId allowDiagonals now = table) ∧
    ((lookupKey table (cacheKey boardBits shapeId allowDiagonals) = none ∨
      ∃ ex, lookupKey table (cacheKey boardBits shapeId allowDiagonals) = some ex ∧
        (ex.status = "pending" ∨ ex.status = "failed")) →
      lookupKey (enqueue table boardBits stoneCount shapeId allowDiagonals now)
          (cacheKey boardBits shapeId allowDiagonals) =
        some ⟨stoneCount, shapeId, allowDiagonals, "pending", now, now⟩) ∧
    countKey
        (enqueue (enqueue table boardBits stoneCount shapeId allowDiagonals now)
          boardBits stoneCount2 shapeId allowDiagonals now2)
        (cacheKey boardBits shapeId allowDiagonals) ≤ 1 := by
  refine ⟨?_, ?_, ?_⟩
  · intro ex hex hp hf
    have hput : enqueuePut table boardBits stoneCount shapeId allowDiagonals now =
        .error .conditionalCheckFailed := by
      rw [enqueuePut]
      simp only [hex]
      rw [if_neg]
      rintro (h | h)
      · exact hp h
      · exact hf h
    refine ⟨hput, ?_⟩
    rw [enqueue, hput]
  · rintro (hnone | ⟨ex, hex, hst⟩)
    · rw [enqueue, enqueuePut]
      simp only [hnone]
      exact lookup_putKV_self table _ _
    · rw [enqueue, enqueuePut]
      simp only [hex]
      rw [if_pos hst]
      exact lookup_putKV_self table _ _
  · have h1 := countKey_enqueue_le table boardBits stoneCount shapeId
      allowDiagonals now
    have h2 := countKey_enqueue_le
      (enqueue table boardBits stoneCount shapeId allowDiagonals now) boardBits
      stoneCount2 shapeId allowDiagonals now2
    omega

theorem enqueue_idempotent_witness :
    countKey [("42", (⟨9, "wiegleb", false, "solving", "t0", "t0"⟩ : QItem))]
        (cacheKey 42 "wiegleb" false) ≤ 1 ∧
    ((∀ ex, lookupKey [("42", (⟨9, "wiegleb", false, "solving", "t0", "t0"⟩ : QItem))]
        (cacheKey 42 "wiegleb" false) = some ex →
      ex.status ≠ "pending" → ex.status ≠ "failed" →
      enqueuePut [("42", (⟨9, "wiegleb", false, "solving", "t0", "t0"⟩ : QItem))]
          42 9 "wiegleb" false "t1" = .error .conditionalCheckFailed ∧
        enqueue [("42", (⟨9, "wiegleb", false, "solving", "t0", "t0"⟩ : QItem))]
          42 9 "wiegleb" false "t1" =
          [("42", (⟨9, "wiegleb", false, "solving", "t0", "t0"⟩ : QItem))]) ∧
    ((lookupKey [("42", (⟨9, "wiegleb", false, "solving", "t0", "t0"⟩ : QItem))]
        (cacheKey 42 "wiegleb" false) = none ∨
      ∃ ex, lookupKey [("42", (⟨9, "wiegleb", false, "solving", "t0", "t0"⟩ : QItem))]
          (cacheKey 42 "wiegleb" false) = some ex ∧
        (ex.status = "pending" ∨ ex.status = "failed")) →
      lookupKey (enqueue [("42", (⟨9, "wiegleb", false, "solving", "t0", "t0"⟩ : QItem))]
          42 9 "wiegleb" false "t1") (cacheKey 42 "wiegleb" false) =
        some ⟨9, "wiegleb", false, "pending", "t1", "t1"⟩) ∧
    countKey
        (enqueue (enqueue [("42", (⟨9, "wiegleb", false, "solving", "t0", "t0"⟩ : QItem))]
            42 9 "wiegleb" false "t1") 42 9 "wiegleb" false "t2")
        (cacheKey 42 "wiegleb" false) ≤ 1) :=
  ⟨by decide,
   enqueue_idempotent [("42", ⟨9, "wiegleb", false, "solving", "t0", "t0"⟩)] 42 9 9
     "wiegleb" false "t1" "t2" (by decide)⟩
/-- C4: on a cache miss whose bounded live solve comes back empty-handed
(deadline expiry included: `solve` returns `None` for it), the hint route
answers `null`, leaves the cache alone, and leaves the work queue exactly as
it was — no state is ever enqueued, because the route never touches the
queue at all. -/
theorem hint_timeout_enqueues (cache : Table CacheItem) (queue : Table QItem)
    (board : List (List Bool)) (clock : Nat → Bool) (now : String)
    (hmiss : getSolution cache (boardToBits board wieglebShape.validCells)
      "wiegleb" false = none)
    (hnone : solveT wieglebShape.validCells (buildMoves wieglebShape.validCells)
      clock true board = none) :
    getGameHint cache queue board clock now = (none, cache, queue) := by
  rw [getGameHint]
  simp only [hmiss]
  rw [getGameHintSolve]
  simp only [hnone]

theorem hint_timeout_enqueues_witness :
    getSolution [] (boardToBits (mkBoard 9 9 [(4, 2), (4, 6)])
        wieglebShape.validCells) "wiegleb" false = none ∧
    solveT wieglebShape.validCells (buildMoves wieglebShape.validCells)
        clockFalse true (mkBoard 9 9 [(4, 2), (4, 6)]) = none ∧
    getGameHint [] [] (mkBoard 9 9 [(4, 2), (4, 6)]) clockFalse "t" =
      (none, [], []) :=
  ⟨by decide, by decide,
   hint_timeout_enqueues [] [] (mkBoard 9 9 [(4, 2), (4, 6)]) clockFalse "t"
     (by decide) (by decide)⟩
/-- C6: the single-item worker never reaches the cache or queue writes. Its
`solve(...)` call passes the keyword argument `allow_diagonals`, which
`solver.solve` does not accept, so Python raises `TypeError` before the
solver runs; an unregistered shape id raises `KeyError` even earlier. For
every claimed item the run therefore escapes with an exception and neither
table is updated. -/
theorem solve_item_result (cache : Table CacheItem) (queue : Table QItem)
    (item : WorkItem) (clock : Nat → Bool) (now : String) :
    solveItem cache queue item clock now =
      .error (if (lookupShape item.shapeId).isSome then .typeError else .keyError) := by
  rw [solveItem]
  cases h : lookupShape item.shapeId with
  | none => simp [h]
  | some shape =>
      have hkw : solveItemKwargs.all (fun kw => solveParams.contains kw) = false := by
        decide
      have hcall : callSolveFromWorker shape.validCells (buildMoves shape.validCells)
          clock (bitsToBoard item.bits shape) = .error .typeError := by
        rw [callSolveFromWorker, hkw]
        simp
      simp [h, hcall]
/-- C8: on a cache hit holding the `"NO_SOLUTION"` sentinel, the route
returns `cached[0]` — the first *character* of the sentinel string, `'N'` —
as the hint, a value that is neither a move dict nor `null`. (The `"QUEUED"`
sentinel likewise yields `'Q'`.) So a sentinel hit never yields a Move, but
the route's output is not confined to a single next Move or `null`. -/
theorem hint_move_or_null (cache : Table CacheItem) (queue : Table QItem)
    (board : List (List Bool)) (clock : Nat → Bool) (now : String)
    (hno : getSolution cache (boardToBits board wieglebShape.validCells)
      "wiegleb" false = some .noSolution) :
    (getGameHint cache queue board clock now).1 = some (.strChar 'N') ∧
    ∀ m : CMove, (getGameHint cache queue board clock now).1 ≠ some (.move m) := by
  have hval : (getGameHint cache queue board clock now).1 = some (.strChar 'N') := by
    rw [getGameHint]
    simp only [hno]
    rfl
  refine ⟨hval, fun m hm => ?_⟩
  rw [hval] at hm
  exact HintVal.noConfusion (Option.some.inj hm)

theorem hint_move_or_null_witness :
    getSolution
        [(cacheKey (boardToBits (mkBoard 9 9 [(4, 2), (4, 6)])
            wieglebShape.validCells) "wiegleb" false,
          (⟨.noSolution, 2, "t0"⟩ : CacheItem))]
        (boardToBits (mkBoard 9 9 [(4, 2), (4, 6)]) wieglebShape.validCells)
        "wiegleb" false = some .noSolution ∧
    ((getGameHint
        [(cacheKey (boardToBits (mkBoard 9 9 [(4, 2), (4, 6)])
            wieglebShape.validCells) "wiegleb" false,
          (⟨.noSolution, 2, "t0"⟩ : CacheItem))]
        [] (mkBoard 9 9 [(4, 2), (4, 6)]) clockFalse "t").1 =
        some (.strChar 'N') ∧
      ∀ m : CMove,
        (getGameHint
          [(cacheKey (boardToBits (mkBoard 9 9 [(4, 2), (4, 6)])
              wieglebShape.validCells) "wiegleb" false,
            (⟨.noSolution, 2, "t0"⟩ : CacheItem))]
          [] (mkBoard 9 9 [(4, 2), (4, 6)]) clockFalse "t").1 ≠
          some (.move m)) :=
  ⟨by decide,
   hint_move_or_null
     [(cacheKey (boardToBits (mkBoard 9 9 [(4, 2), (4, 6)])
         wieglebShape.validCells) "wiegleb" false,
       ⟨.noSolution, 2, "t0"⟩)]
     [] (mkBoard 9 9 [(4, 2), (4, 6)]) clockFalse "t" (by decide)⟩
